import Mathlib

/-!
Verification of the vending-machine repository: a shallow embedding of
`src/vending_machine/payments.py`, `src/vending_machine/products.py` and
`src/vending_machine/__init__.py`, together with theorems settling the
specification claims about the change solver, the monetary inventory, the
product stock and the transaction state machine.

Python `dict[int, int]` values (monetary inventories, change configurations,
backtracking solutions) are embedded as association lists in insertion order,
with `defaultdict(lambda: 0)` lookup semantics.  Machine integers are `Int`
(Python integers are unbounded; `sys.maxsize` appears only as the literal
initial bound of the backtracking search).
-/

namespace VM

/-- A Python `dict[int, int]` in insertion order. -/
abbrev Dict := List (Int × Int)

/-- `d[k]` under `defaultdict(lambda: 0)` semantics: the first binding of `k`,
and `0` when `k` is absent. -/
def lookupD (d : Dict) (k : Int) : Int :=
  match d.find? (fun p => p.1 == k) with
  | some p => p.2
  | none => 0

/-- `d[k] = v` for a key already present: rewrite every binding of `k`
(a Python dict holds each key at most once). -/
def setAll (d : Dict) (k v : Int) : Dict :=
  d.map (fun p => if p.1 == k then (p.1, v) else p)

/-- `d[k] = v`: overwrite the binding when `k` is present, otherwise append a
new binding at the end, as Python dict insertion order does. -/
def updIns (d : Dict) (k v : Int) : Dict :=
  if (d.find? (fun p => p.1 == k)).isSome then setAll d k v else d ++ [(k, v)]

/-- Total monetary value of a configuration: `sum(k * v for k, v in d.items())`. -/
def dictVal (d : Dict) : Int := (d.map (fun p => p.1 * p.2)).sum

/-- The keys of a dict, in insertion order. -/
def keysOf (d : Dict) : List Int := d.map Prod.fst

/-- Insert `x` into a list sorted in descending order. -/
def insertDesc (x : Int) : List Int → List Int
  | [] => [x]
  | y :: ys => if y < x then x :: y :: ys else y :: insertDesc x ys

/-- `sorted(l, reverse=True)`. -/
def sortDesc : List Int → List Int
  | [] => []
  | x :: xs => insertDesc x (sortDesc xs)

/-- `sorted([k for k, v in change.items() if v > 0], reverse=True)`
(`backtrack_best_change`, payments.py line 165). -/
def positiveDenominations (change : Dict) : List Int :=
  sortDesc ((change.filter (fun p => decide (0 < p.2))).map Prod.fst)

/-- Python's `sys.maxsize` on a 64-bit platform, the initial `lowest_owed`
bound of the backtracking search. -/
def sysMaxsize : Int := 9223372036854775807

/-- The quantities tried for one denomination:
`reversed(range(1, min(owed // denomination, change[denomination]) + 1))`
(payments.py lines 170-173).  Python `//` is floor division, `Int.fdiv`. -/
def quantities (owed : Int) (change : Dict) (d : Int) : List Nat :=
  (List.range' 1 (min (Int.fdiv owed d) (lookupD change d)).toNat).reverse

/-- The (denomination, quantity) pairs visited by the two nested `for` loops of
`backtrack_best_change`, in iteration order. -/
def branchList (owed : Int) (change : Dict) : List (Int × Nat) :=
  (positiveDenominations change).foldr
    (fun d acc => (quantities owed change d).map (fun q => (d, q)) ++ acc) []

/-- The two nested `for` loops of `backtrack_best_change` (payments.py lines
169-194), with `bt` standing for the recursive call.  Each branch builds
`new_change` (the chosen denomination zeroed out), `new_owed_amount` and
`new_solution`, recurses, then either returns `(new_solution, 0)` immediately
on an exact match (`return new_solution, 0`), or updates `(best_solution,
lowest_owed)` when the branch strictly improved the remainder. -/
def goBranches (bt : Int → Dict → Dict → Option Dict → Int → Option Dict × Int)
    (owed : Int) (change cur : Dict) :
    List (Int × Nat) → Option Dict → Int → Option Dict × Int
  | [], best, lowest => (best, lowest)
  | (d, q) :: rest, best, lowest =>
    let newChange := setAll change d 0
    let newOwed := owed - (q : Int) * d
    let newSolution := updIns cur d (q : Int)
    let r := bt newOwed newChange newSolution best lowest
    if r.2 = 0 then (r.1, 0)
    else if r.2 < lowest then goBranches bt owed change cur rest r.1 r.2
    else goBranches bt owed change cur rest best lowest

/-- `backtrack_best_change(owed, change, current_solution, best_solution,
lowest_owed)` (payments.py lines 143-196).  The extra `fuel` argument bounds
the recursion depth: every recursive call of the source zeroes out one
denomination with a positive count, so the depth never exceeds the number of
entries of `change`; `find_optimal_change` supplies `change.length + 1`. -/
def backtrack : Nat → Int → Dict → Dict → Option Dict → Int → Option Dict × Int
  | 0, _, _, _, best, lowest => (best, lowest)
  | fuel + 1, owed, change, cur, best, lowest =>
    let best' := if owed < lowest then some cur else best
    let lowest' := if owed < lowest then owed else lowest
    if owed = 0 then (some cur, 0)
    else
      goBranches (fun o c s b l => backtrack fuel o c s b l)
        owed change cur (branchList owed change) best' lowest'

/-- `ChangeConfiguration` (payments.py lines 103-123): the planned change and
the remainder `owed` that could not be covered. -/
structure ChangeConfiguration where
  owed : Int
  configuration : Dict
deriving Repr, DecidableEq

/-- `ChangeConfiguration.is_exact`. -/
def ChangeConfiguration.is_exact (c : ChangeConfiguration) : Bool := c.owed == 0

/-- `MonetaryInventory` (payments.py lines 47-100): denomination counts plus
the supported denomination set fixed at construction.  Denominations are
embedded by their integer value. -/
structure MonetaryInventory where
  inventory : Dict
  supported : List Int
deriving Repr, DecidableEq

/-- `find_optimal_change(owed_amount, monetary_inventory)` (payments.py lines
126-140).  The `change` dict passed to the search is the inventory with
`Denomination` keys unwrapped to their values, which the embedding already
uses; the result dict is rewrapped unchanged. -/
def find_optimal_change (owed_amount : Int) (monetary_inventory : MonetaryInventory) :
    Option ChangeConfiguration :=
  let change := monetary_inventory.inventory
  match backtrack (change.length + 1) owed_amount change [] none sysMaxsize with
  | (some result, diff) => some ⟨diff, result⟩
  | (none, _) => none

/-- `MonetaryInventory.available_change` (payments.py lines 91-97). -/
def MonetaryInventory.available_change (m : MonetaryInventory) : Dict :=
  m.inventory.filter (fun p => decide (0 < p.2))

/-- Python exceptions surfaced by the embedded operations. -/
inductive PyErr
  | MachineError
  | ValueError
  | RuntimeError
  | AssertionError
  | QueueEmpty
deriving Repr, DecidableEq

/-- The `Denomination.__init__` validity check (payments.py lines 17-20):
rejects negative values and values above 100 that are not multiples of 100. -/
def denomValid (value : Int) : Bool :=
  !(value < 0 || (value > 100 && value % 100 != 0))

/-- `MonetaryInventory.add_monetary_unit` (payments.py lines 70-73): raises
`ValueError` for a denomination outside the supported set, otherwise
increments its count (a `defaultdict` read creates an absent key at `0`). -/
def MonetaryInventory.add_monetary_unit (m : MonetaryInventory) (denomination : Int) :
    Except PyErr MonetaryInventory :=
  if denomination ∈ m.supported then
    .ok { m with
          inventory := updIns m.inventory denomination (lookupD m.inventory denomination + 1) }
  else .error .ValueError

/-- `MonetaryInventory.add_cash` (payments.py lines 75-81): every key of the
supply is checked against the supported set before any mutation. -/
def MonetaryInventory.add_cash (m : MonetaryInventory) (supply : Dict) :
    Except PyErr MonetaryInventory :=
  if supply.all (fun p => decide (p.1 ∈ m.supported)) then
    .ok { m with
          inventory := supply.foldl (fun inv p => updIns inv p.1 (lookupD inv p.1 + p.2)) m.inventory }
  else .error .ValueError

/-- The loop of `MonetaryInventory.remove_change` (payments.py lines 83-89):
entries are processed in the mapping's iteration order, decrementing as it
goes; an underflow raises `RuntimeError` after the earlier entries have
already been decremented. -/
def removeChangeLoop (inv : Dict) : Dict → Dict × Option PyErr
  | [] => (inv, none)
  | (d, q) :: rest =>
    if lookupD inv d < q then (inv, some .RuntimeError)
    else removeChangeLoop (updIns inv d (lookupD inv d - q)) rest

/-- `MonetaryInventory.remove_change` (payments.py lines 83-89). -/
def MonetaryInventory.remove_change (m : MonetaryInventory) (change : Dict) :
    MonetaryInventory × Option PyErr :=
  let r := removeChangeLoop m.inventory change
  ({ m with inventory := r.1 }, r.2)

/-- `ProductInfo` (products.py lines 20-23). -/
structure ProductInfo where
  name : String
  price : Int
deriving Repr, DecidableEq

/-- `Product` (products.py lines 10-17): identified solely by its id. -/
structure Product where
  id : Int
deriving Repr, DecidableEq

/-- A catalogue, `Dict[ProductID, ProductInfo]`, in insertion order. -/
abbrev Catalogue := List (Int × ProductInfo)

/-- Catalogue lookup, `catalogue.get(product_id, None)`. -/
def catLookup (c : Catalogue) (k : Int) : Option ProductInfo :=
  (c.find? (fun p => p.1 == k)).map Prod.snd

/-- Python `old | new` on dicts: the keys of `old` in their order, each with
`new`'s value when `new` also binds it, followed by the keys of `new` absent
from `old`, in `new`'s order. -/
def catMerge (old new : Catalogue) : Catalogue :=
  old.map (fun p =>
    match new.find? (fun q => q.1 == p.1) with
    | some q => (p.1, q.2)
    | none => p) ++
  new.filter (fun q => !(old.any (fun p => p.1 == q.1)))

/-- `Stock` (products.py lines 26-73): a catalogue plus, per product id, a
FIFO queue of physical units.  The `defaultdict(Queue)` is embedded as a
function from id to the queue's contents, front first. -/
structure Stock where
  catalogue : Catalogue
  products : Int → List Product

/-- Enqueue one unit (`Stock.add_products` loop body, products.py lines 37-44;
the missing-catalogue case only logs a warning). -/
def Stock.add_product (s : Stock) (p : Product) : Stock :=
  { s with products := fun i => if i = p.id then s.products p.id ++ [p] else s.products i }

/-- `Stock.add_products` (products.py lines 37-44). -/
def Stock.add_products (s : Stock) (ps : List Product) : Stock :=
  ps.foldl Stock.add_product s

/-- `Stock.get_product` (products.py lines 46-47): dequeue the oldest unit;
`none` models the `queue.Empty` raised by `get_nowait` on an empty queue. -/
def Stock.get_product (s : Stock) (product_id : Int) : Option (Product × Stock) :=
  match s.products product_id with
  | [] => none
  | p :: rest =>
    some (p, { s with products := fun i => if i = product_id then rest else s.products i })

/-- `Stock.get_price_of` (products.py lines 49-57): `none` models the
`RuntimeError` for a product id absent from the catalogue. -/
def Stock.get_price_of (s : Stock) (product_id : Int) : Option Int :=
  (catLookup s.catalogue product_id).map ProductInfo.price

/-- `Stock.get_offer` (products.py lines 59-65): catalogue entries whose
product id has at least one stocked unit. -/
def Stock.get_offer (s : Stock) : Catalogue :=
  s.catalogue.filter (fun p => !(s.products p.1).isEmpty)

/-- `Stock.update_catalogue` (products.py lines 67-73):
`self.catalogue = self.get_offer() | new_catalogue`. -/
def Stock.update_catalogue (s : Stock) (new_catalogue : Catalogue) : Stock :=
  { s with catalogue := catMerge s.get_offer new_catalogue }

/-- `States` (init file lines 19-27). -/
inductive States
  | IDLE
  | MAINTENANCE_MODE
  | PRODUCT_SELECTION
  | COLLECTING_PAYMENT
  | CONFIRM_SMALLER_CHANGE
  | DISPATCHING_PRODUCT
  | RETURNING_CHANGE
deriving Repr, DecidableEq

/-- The transition triggers (init file lines 91-176) with their keyword
payloads. -/
inductive Trigger
  | start_maintenance
  | reload_change (supply : Dict)
  | add_products (products : List Product)
  | end_maintenance
  | start
  | cancel
  | select (product_id : Int)
  | insert (denomination : Int)
  | checkout
  | accept
  | advance
deriving DecidableEq

/-- The `VendingMachine` model state (init file lines 44-50) together with the
delivery collaborator's observable calls (init file lines 29-34). -/
structure Machine where
  state : States
  stock : Stock
  monetary_inventory : MonetaryInventory
  selected_product : Option Int
  customer_balance : Int
  dispatched : List Product
  cash_sent : List ChangeConfiguration

/-- `_not_enough_money` (init file lines 236-239): asserts a product is
selected, looks up its price (which raises when there is no catalogue entry)
and compares it with the balance. -/
def notEnoughMoney (m : Machine) : Except PyErr Bool :=
  match m.selected_product with
  | none => .error .AssertionError
  | some pid =>
    match m.stock.get_price_of pid with
    | none => .error .RuntimeError
    | some total => .ok (decide (total > m.customer_balance))

/-- `_can_return_exact_change` (init file lines 241-253). -/
def canReturnExactChange (m : Machine) : Except PyErr Bool :=
  match m.selected_product with
  | none => .error .AssertionError
  | some pid =>
    match m.stock.get_price_of pid with
    | none => .error .RuntimeError
    | some price =>
      match find_optimal_change (m.customer_balance - price) m.monetary_inventory with
      | none => .ok false
      | some config => .ok config.is_exact

/-- `_select` (init file lines 262-264). -/
def doSelect (product_id : Int) (m : Machine) : Machine :=
  { m with selected_product := some product_id }

/-- `_insert` (init file lines 266-269): the customer balance is incremented
first; only afterwards is the `Denomination` constructed and added to the
inventory, so an invalid or unsupported value raises with the balance already
mutated. -/
def doInsert (denomination : Int) (m : Machine) : Machine × Option PyErr :=
  let m1 := { m with customer_balance := m.customer_balance + denomination }
  if denomValid denomination then
    match m1.monetary_inventory.add_monetary_unit denomination with
    | .ok inv => ({ m1 with monetary_inventory := inv }, none)
    | .error e => (m1, some e)
  else (m1, some .ValueError)

/-- `_charge_customer` (init file lines 287-289): debit the selected product's
price (a missing catalogue entry raises inside `get_price_of`). -/
def chargeCustomer (m : Machine) : Machine × Option PyErr :=
  match m.selected_product with
  | none => (m, none)
  | some pid =>
    match m.stock.get_price_of pid with
    | none => (m, some .RuntimeError)
    | some price => ({ m with customer_balance := m.customer_balance - price }, none)

/-- `_dispatch_product` (init file lines 282-285): dequeue the selected
product (`queue.Empty` when its queue is empty, including when no product is
selected, since `products[None]` is a fresh empty queue), clear the selection
and hand the unit to the delivery system. -/
def dispatchProduct (m : Machine) : Machine × Option PyErr :=
  match m.selected_product with
  | none => (m, some .QueueEmpty)
  | some pid =>
    match m.stock.get_product pid with
    | none => (m, some .QueueEmpty)
    | some (p, stock') =>
      ({ m with stock := stock', selected_product := none, dispatched := m.dispatched ++ [p] },
       none)

/-- `_return_change` (init file lines 291-303): nothing happens on a zero
balance or when no non-empty configuration is found; otherwise the
configuration is removed from the inventory (which can raise on underflow) and
sent to the customer.  The customer balance itself is never modified here. -/
def returnChange (m : Machine) : Machine × Option PyErr :=
  if m.customer_balance = 0 then (m, none)
  else
    match find_optimal_change m.customer_balance m.monetary_inventory with
    | none => (m, none)
    | some config =>
      if config.configuration.isEmpty then (m, none)
      else
        match m.monetary_inventory.remove_change config.configuration with
        | (inv, some e) => ({ m with monetary_inventory := inv }, some e)
        | (inv, none) =>
          ({ m with monetary_inventory := inv, cash_sent := m.cash_sent ++ [config] }, none)

/-- Entering `RETURNING_CHANGE` (init file lines 85-88): the state is set,
then the on-enter callbacks `[_return_change, "advance"]` run; `advance`
(init file lines 166-170) moves the machine to `IDLE`.  An exception in
`_return_change` propagates and leaves the machine in `RETURNING_CHANGE`. -/
def enterReturningChange (m : Machine) : Machine × Option PyErr :=
  match returnChange { m with state := .RETURNING_CHANGE } with
  | (m2, some e) => (m2, some e)
  | (m2, none) => ({ m2 with state := .IDLE }, none)

/-- Entering `DISPATCHING_PRODUCT` (init file lines 81-84): the state is set,
the on-enter callbacks `[_dispatch_product, "advance"]` run, and `advance`
(init file lines 161-165) enters `RETURNING_CHANGE` in turn. -/
def enterDispatchingProduct (m : Machine) : Machine × Option PyErr :=
  match dispatchProduct { m with state := .DISPATCHING_PRODUCT } with
  | (m2, some e) => (m2, some e)
  | (m2, none) => enterReturningChange m2

/-- Firing `checkout` from `COLLECTING_PAYMENT`: the three declared candidates
(init file lines 137-154) are tried in declaration order and the first whose
conditions pass wins; a condition that raises propagates with no state
change. -/
def fireCheckout (m : Machine) : Machine × Option PyErr :=
  match notEnoughMoney m with
  | .error e => (m, some e)
  | .ok true => (m, none)
  | .ok false =>
    match canReturnExactChange m with
    | .error e => (m, some e)
    | .ok true =>
      match chargeCustomer m with
      | (m1, some e) => (m1, some e)
      | (m1, none) => enterDispatchingProduct m1
    | .ok false => ({ m with state := .CONFIRM_SMALLER_CHANGE }, none)

/-- `_reload_change` (init file lines 278-280). -/
def doReloadChange (supply : Dict) (m : Machine) : Machine × Option PyErr :=
  match m.monetary_inventory.add_cash supply with
  | .ok inv => ({ m with monetary_inventory := inv }, none)
  | .error e => (m, some e)

/-- `_add_products` (init file lines 274-276). -/
def doAddProducts (ps : List Product) (m : Machine) : Machine :=
  { m with stock := m.stock.add_products ps }

/-- Firing a trigger: the candidates declared for it (init file lines 91-176)
are matched against the current state in declaration order; when no candidate
has a matching source state, `transitions` raises `MachineError` without
touching the model. -/
def fire (t : Trigger) (m : Machine) : Machine × Option PyErr :=
  match t, m.state with
  | .start_maintenance, .IDLE => ({ m with state := .MAINTENANCE_MODE }, none)
  | .reload_change supply, .MAINTENANCE_MODE => doReloadChange supply m
  | .add_products ps, .MAINTENANCE_MODE => (doAddProducts ps m, none)
  | .end_maintenance, .MAINTENANCE_MODE => ({ m with state := .IDLE }, none)
  | .start, .IDLE => ({ m with state := .PRODUCT_SELECTION }, none)
  | .cancel, .PRODUCT_SELECTION => ({ m with state := .IDLE }, none)
  | .select pid, .PRODUCT_SELECTION =>
    ({ doSelect pid m with state := .COLLECTING_PAYMENT }, none)
  | .insert d, .COLLECTING_PAYMENT => doInsert d m
  | .checkout, .COLLECTING_PAYMENT => fireCheckout m
  | .accept, .CONFIRM_SMALLER_CHANGE =>
    match chargeCustomer m with
    | (m1, some e) => (m1, some e)
    | (m1, none) => enterDispatchingProduct m1
  | .advance, .DISPATCHING_PRODUCT => enterReturningChange m
  | .advance, .RETURNING_CHANGE => ({ m with state := .IDLE }, none)
  | .cancel, .COLLECTING_PAYMENT => enterReturningChange m
  | .cancel, .CONFIRM_SMALLER_CHANGE => enterReturningChange m
  | _, _ => (m, some .MachineError)

/-- The source states declared for each trigger in the transition table
(init file lines 91-176). -/
def sources : Trigger → List States
  | .start_maintenance => [.IDLE]
  | .reload_change _ => [.MAINTENANCE_MODE]
  | .add_products _ => [.MAINTENANCE_MODE]
  | .end_maintenance => [.MAINTENANCE_MODE]
  | .start => [.IDLE]
  | .cancel => [.PRODUCT_SELECTION, .COLLECTING_PAYMENT, .CONFIRM_SMALLER_CHANGE]
  | .select _ => [.PRODUCT_SELECTION]
  | .insert _ => [.COLLECTING_PAYMENT]
  | .checkout => [.COLLECTING_PAYMENT]
  | .accept => [.CONFIRM_SMALLER_CHANGE]
  | .advance => [.DISPATCHING_PRODUCT, .RETURNING_CHANGE]

/-! ### Helper lemmas about the dict embedding -/

/-- Number of entries with a positive count; each recursive call of
`backtrack_best_change` strictly decreases it. -/
def posCount (d : Dict) : Nat := (d.filter (fun p => decide (0 < p.2))).length

theorem lookupD_nil (k : Int) : lookupD [] k = 0 := rfl

theorem lookupD_cons (p : Int × Int) (d : Dict) (k : Int) :
    lookupD (p :: d) k = if p.1 = k then p.2 else lookupD d k := by
  by_cases h : p.1 = k
  · simp [lookupD, List.find?_cons, h]
  · simp [lookupD, List.find?_cons, h]

theorem keysOf_nil : keysOf [] = [] := rfl

theorem keysOf_cons (p : Int × Int) (d : Dict) : keysOf (p :: d) = p.1 :: keysOf d := rfl

theorem mem_keysOf_of_lookupD_ne (d : Dict) (k : Int) (h : lookupD d k ≠ 0) :
    k ∈ keysOf d := by
  induction d with
  | nil => simp [lookupD] at h
  | cons p t ih =>
    rw [lookupD_cons] at h
    rw [keysOf_cons, List.mem_cons]
    by_cases hp : p.1 = k
    · exact Or.inl hp.symm
    · rw [if_neg hp] at h
      exact Or.inr (ih h)

theorem lookupD_eq_zero_of_not_mem (d : Dict) (k : Int) (h : k ∉ keysOf d) :
    lookupD d k = 0 := by
  by_contra hne
  exact h (mem_keysOf_of_lookupD_ne d k hne)

theorem setAll_cons (p : Int × Int) (t : Dict) (k v : Int) :
    setAll (p :: t) k v = (if p.1 = k then (p.1, v) else p) :: setAll t k v := by
  by_cases h : p.1 = k
  · simp [setAll, h]
  · simp [setAll, h]

theorem keysOf_setAll (d : Dict) (k v : Int) : keysOf (setAll d k v) = keysOf d := by
  induction d with
  | nil => rfl
  | cons p t ih =>
    rw [setAll_cons, keysOf_cons, keysOf_cons, ih]
    by_cases h : p.1 = k
    · simp [h]
    · simp [h]

theorem lookupD_setAll_ne (d : Dict) (k v k' : Int) (h : k' ≠ k) :
    lookupD (setAll d k v) k' = lookupD d k' := by
  induction d with
  | nil => rfl
  | cons p t ih =>
    rw [setAll_cons, lookupD_cons, lookupD_cons]
    by_cases hp : p.1 = k
    · have h1 : ¬ p.1 = k' := by rw [hp]; exact fun hh => h hh.symm
      have h2 : ¬ (k = k') := fun hh => h hh.symm
      simp [hp, h1, h2, ih]
    · simp only [if_neg hp]
      by_cases hp' : p.1 = k'
      · simp [hp']
      · simp [hp', ih]

theorem lookupD_setAll_self (d : Dict) (k v : Int) :
    lookupD (setAll d k v) k = if k ∈ keysOf d then v else 0 := by
  induction d with
  | nil => rfl
  | cons p t ih =>
    rw [setAll_cons, lookupD_cons, keysOf_cons]
    by_cases hp : p.1 = k
    · simp [hp]
    · have : ¬ (k = p.1) := fun hh => hp hh.symm
      simp [hp, this, ih]

theorem posCount_nil : posCount [] = 0 := rfl

theorem posCount_cons (p : Int × Int) (t : Dict) :
    posCount (p :: t) = (if 0 < p.2 then 1 else 0) + posCount t := by
  by_cases h : (0 : Int) < p.2
  · simp [posCount, List.filter_cons, h, Nat.add_comm]
  · simp [posCount, List.filter_cons, h]

theorem posCount_setAll_zero_le (d : Dict) (k : Int) :
    posCount (setAll d k 0) ≤ posCount d := by
  induction d with
  | nil => simp [setAll]
  | cons p t ih =>
    rw [setAll_cons, posCount_cons, posCount_cons]
    by_cases hp : p.1 = k
    · simp only [hp, if_pos]
      have : ((0:Int) < (k, (0:Int)).2) = False := by simp
      simp only [this, if_false]
      omega
    · simp only [hp, if_false]
      omega

theorem posCount_setAll_zero_lt (d : Dict) (k : Int) (h : 0 < lookupD d k) :
    posCount (setAll d k 0) < posCount d := by
  induction d with
  | nil => simp [lookupD] at h
  | cons p t ih =>
    rw [lookupD_cons] at h
    rw [setAll_cons, posCount_cons, posCount_cons]
    by_cases hp : p.1 = k
    · rw [if_pos hp] at h ⊢
      have h2 : ((0:Int) < ((p.1, (0:Int)) : Int × Int).2) = False := by simp
      simp only [h2, if_false, if_pos h]
      have := posCount_setAll_zero_le t k
      omega
    · rw [if_neg hp] at h ⊢
      have := ih h
      omega

theorem mem_insertDesc (x y : Int) (l : List Int) :
    y ∈ insertDesc x l ↔ y = x ∨ y ∈ l := by
  induction l with
  | nil => simp [insertDesc]
  | cons a t ih =>
    rw [insertDesc]
    by_cases h : a < x
    · simp [h]
    · rw [if_neg h]
      rw [List.mem_cons, ih, List.mem_cons]
      tauto

theorem mem_sortDesc (x : Int) (l : List Int) : x ∈ sortDesc l ↔ x ∈ l := by
  induction l with
  | nil => simp [sortDesc]
  | cons a t ih =>
    rw [sortDesc, mem_insertDesc, ih, List.mem_cons]

theorem lookupD_eq_of_mem (d : Dict) (k v : Int) (hnd : (keysOf d).Nodup)
    (h : (k, v) ∈ d) : lookupD d k = v := by
  induction d with
  | nil => simp at h
  | cons p t ih =>
    rw [keysOf_cons, List.nodup_cons] at hnd
    rw [List.mem_cons] at h
    rw [lookupD_cons]
    rcases h with h | h
    · simp [← h]
    · have hk : k ∈ keysOf t := List.mem_map_of_mem Prod.fst h
      have : ¬ p.1 = k := fun hh => hnd.1 (hh ▸ hk)
      rw [if_neg this]
      exact ih hnd.2 h

theorem mem_of_lookupD_pos (d : Dict) (k : Int) (h : 0 < lookupD d k) :
    (k, lookupD d k) ∈ d := by
  induction d with
  | nil => simp [lookupD] at h
  | cons p t ih =>
    rw [lookupD_cons] at h ⊢
    by_cases hp : p.1 = k
    · rw [if_pos hp] at h ⊢
      have : ((k, p.2) : Int × Int) = p := by rw [← hp]
      rw [this]
      exact List.mem_cons_self p t
    · rw [if_neg hp] at h ⊢
      exact List.mem_cons_of_mem p (ih h)

theorem mem_positiveDenominations (change : Dict) (k : Int)
    (hnd : (keysOf change).Nodup) :
    k ∈ positiveDenominations change ↔ 0 < lookupD change k := by
  rw [positiveDenominations, mem_sortDesc]
  constructor
  · intro h
    rcases List.mem_map.mp h with ⟨p, hp, hk⟩
    rcases List.mem_filter.mp hp with ⟨hpm, hpv⟩
    have hv : 0 < p.2 := by simpa using hpv
    have : lookupD change p.1 = p.2 := lookupD_eq_of_mem change p.1 p.2 hnd hpm
    rw [← hk, this]
    exact hv
  · intro h
    have hm := mem_of_lookupD_pos change k h
    refine List.mem_map.mpr ⟨(k, lookupD change k), ?_, rfl⟩
    refine List.mem_filter.mpr ⟨hm, by simpa using h⟩

theorem updIns_of_not_mem (d : Dict) (k v : Int) (h : k ∉ keysOf d) :
    updIns d k v = d ++ [(k, v)] := by
  rw [updIns, if_neg]
  rw [Option.isSome_iff_exists]
  rintro ⟨p, hp⟩
  have := List.mem_of_find?_eq_some hp
  have hk : p.1 = k := by simpa using List.find?_some hp
  exact h (hk ▸ List.mem_map_of_mem Prod.fst this)

theorem dictVal_nil : dictVal [] = 0 := rfl

theorem dictVal_cons (p : Int × Int) (t : Dict) :
    dictVal (p :: t) = p.1 * p.2 + dictVal t := by
  simp [dictVal]

theorem dictVal_append (a b : Dict) : dictVal (a ++ b) = dictVal a + dictVal b := by
  simp [dictVal]

theorem mem_foldr_append {α β : Type} (f : α → List β) (l : List α) (x : β) :
    x ∈ l.foldr (fun a acc => f a ++ acc) [] ↔ ∃ a ∈ l, x ∈ f a := by
  induction l with
  | nil => simp
  | cons a t ih =>
    simp only [List.foldr_cons, List.mem_append, ih, List.mem_cons]
    constructor
    · rintro (h | ⟨b, hb, hx⟩)
      · exact ⟨a, Or.inl rfl, h⟩
      · exact ⟨b, Or.inr hb, hx⟩
    · rintro ⟨b, hb | hb, hx⟩
      · exact Or.inl (hb ▸ hx)
      · exact Or.inr ⟨b, hb, hx⟩

theorem mem_quantities (owed : Int) (change : Dict) (d : Int) (q : Nat) :
    q ∈ quantities owed change d ↔
      1 ≤ q ∧ (q : Int) ≤ min (Int.fdiv owed d) (lookupD change d) := by
  rw [quantities, List.mem_reverse, List.mem_range']
  constructor
  · rintro ⟨i, hi, rfl⟩
    constructor
    · omega
    · have h1 : 1 + 1 * i ≤ (min (Int.fdiv owed d) (lookupD change d)).toNat := by omega
      have h2 : (0:Int) ≤ min (Int.fdiv owed d) (lookupD change d) := by
        by_contra hc
        push_neg at hc
        have : (min (Int.fdiv owed d) (lookupD change d)).toNat = 0 := by
          simp [Int.toNat_of_nonpos hc.le]
        omega
      have := (Int.le_toNat h2).mp h1
      simpa using this
  · rintro ⟨h1, h2⟩
    have h2' : q ≤ (min (Int.fdiv owed d) (lookupD change d)).toNat := by
      rcases le_or_lt 0 (min (Int.fdiv owed d) (lookupD change d)) with hn | hn
      · exact (Int.le_toNat hn).mpr h2
      · exfalso
        have : (q : Int) < 0 := lt_of_le_of_lt h2 hn
        omega
    exact ⟨q - 1, by omega, by omega⟩

theorem mem_branchList (owed : Int) (change : Dict) (d : Int) (q : Nat) :
    (d, q) ∈ branchList owed change ↔
      d ∈ positiveDenominations change ∧ q ∈ quantities owed change d := by
  rw [branchList, mem_foldr_append]
  constructor
  · rintro ⟨a, ha, hx⟩
    rcases List.mem_map.mp hx with ⟨q', hq', heq⟩
    have h1 : a = d := congrArg Prod.fst heq
    have h2 : q' = q := congrArg Prod.snd heq
    subst h1
    subst h2
    exact ⟨ha, hq'⟩
  · rintro ⟨h1, h2⟩
    exact ⟨d, h1, List.mem_map.mpr ⟨q, h2, rfl⟩⟩

/-- Value of a selection `f` of units per denomination, summed over a key
list. -/
def valOnKeys (ks : List Int) (f : Int → Int) : Int :=
  (ks.map (fun k => k * f k)).sum

theorem valOnKeys_nil (f : Int → Int) : valOnKeys [] f = 0 := rfl

theorem valOnKeys_cons (k : Int) (ks : List Int) (f : Int → Int) :
    valOnKeys (k :: ks) f = k * f k + valOnKeys ks f := by
  simp [valOnKeys]

theorem valOnKeys_congr (ks : List Int) (f g : Int → Int)
    (h : ∀ k ∈ ks, f k = g k) : valOnKeys ks f = valOnKeys ks g := by
  induction ks with
  | nil => rfl
  | cons k t ih =>
    rw [valOnKeys_cons, valOnKeys_cons, h k (List.mem_cons_self k t),
      ih (fun x hx => h x (List.mem_cons_of_mem k hx))]

theorem valOnKeys_eq_zero (ks : List Int) (f : Int → Int)
    (h : ∀ k ∈ ks, f k = 0) : valOnKeys ks f = 0 := by
  induction ks with
  | nil => rfl
  | cons k t ih =>
    rw [valOnKeys_cons, h k (List.mem_cons_self k t),
      ih (fun x hx => h x (List.mem_cons_of_mem k hx))]
    ring

theorem valOnKeys_nonneg (ks : List Int) (f : Int → Int)
    (hks : ∀ k ∈ ks, 0 < k) (hf : ∀ k, 0 ≤ f k) : 0 ≤ valOnKeys ks f := by
  induction ks with
  | nil => exact le_refl 0
  | cons k t ih =>
    rw [valOnKeys_cons]
    have h1 : 0 ≤ k * f k :=
      mul_nonneg (hks k (List.mem_cons_self k t)).le (hf k)
    have h2 := ih (fun x hx => hks x (List.mem_cons_of_mem k hx))
    omega

theorem valOnKeys_erase_key (ks : List Int) (k₀ : Int) (f : Int → Int)
    (hnd : ks.Nodup) (hk : k₀ ∈ ks) :
    valOnKeys ks f = k₀ * f k₀ + valOnKeys ks (fun k => if k = k₀ then 0 else f k) := by
  induction ks with
  | nil => simp at hk
  | cons a t ih =>
    rw [List.nodup_cons] at hnd
    rw [valOnKeys_cons, valOnKeys_cons]
    rcases List.mem_cons.mp hk with h | h
    · subst h
      have : ∀ x ∈ t, (fun k => if k = k₀ then 0 else f k) x = f x := by
        intro x hx
        have : ¬ (x = k₀) := fun hh => hnd.1 (hh ▸ hx)
        simp [this]
      rw [valOnKeys_congr t _ f this]
      simp
    · have ha : ¬ (a = k₀) := fun hh => hnd.1 (hh ▸ h)
      rw [ih hnd.2 h]
      simp only [ha, if_false]
      ring

theorem keysOf_append (a b : Dict) : keysOf (a ++ b) = keysOf a ++ keysOf b := by
  simp [keysOf]

theorem lookupD_setAll_self_zero (d : Dict) (k : Int) :
    lookupD (setAll d k 0) k = 0 := by
  rw [lookupD_setAll_self]
  split <;> rfl

/-! ### Specification of the backtracking search -/

/-- Shape of a solution produced by the backtracking search relative to the
`change` dict it selects from: pairwise-distinct denominations of `change`,
each used at least once and at most its available count. -/
def TailOK (change tail : Dict) : Prop :=
  (keysOf tail).Nodup ∧
  ∀ p ∈ tail, p.1 ∈ keysOf change ∧ 1 ≤ p.2 ∧ p.2 ≤ lookupD change p.1

/-- Full specification of one `backtrack_best_change` call: the returned
remainder is nonnegative, at most the incoming `lowest_owed` and at most
`owed`; it is at most the remainder left by every admissible selection from
`change`; and the returned solution is either the incoming `best_solution`
(with `lowest_owed` unchanged) or extends `current_solution` by a selection
from `change` realizing the returned remainder exactly. -/
def MSpec (owed : Int) (change cur : Dict) (best : Option Dict) (lowest : Int)
    (r : Option Dict × Int) : Prop :=
  (0 ≤ r.2 ∧ r.2 ≤ lowest ∧ r.2 ≤ owed) ∧
  (∀ f : Int → Int, (∀ k, 0 ≤ f k) → (∀ k, f k ≤ lookupD change k) →
     valOnKeys (keysOf change) f ≤ owed →
     r.2 ≤ owed - valOnKeys (keysOf change) f) ∧
  ((r.1 = best ∧ r.2 = lowest) ∨
   ∃ tail, r.1 = some (cur ++ tail) ∧ TailOK change tail ∧
     0 ≤ dictVal tail ∧ dictVal tail ≤ owed ∧ r.2 = owed - dictVal tail)

theorem branch_facts (owed : Int) (change : Dict) (d : Int) (q : Nat)
    (Hpos : ∀ k ∈ keysOf change, 0 < k)
    (hd : 0 < lookupD change d)
    (hqle : (q : Int) ≤ min (Int.fdiv owed d) (lookupD change d)) :
    d ∈ keysOf change ∧ 0 < d ∧ (q : Int) * d ≤ owed ∧ (q : Int) ≤ lookupD change d := by
  have hdk : d ∈ keysOf change := mem_keysOf_of_lookupD_ne change d (by omega)
  have hdpos : 0 < d := Hpos d hdk
  have h1 : (q : Int) ≤ Int.fdiv owed d := le_trans hqle (min_le_left _ _)
  rw [Int.fdiv_eq_ediv _ hdpos.le] at h1
  exact ⟨hdk, hdpos, Int.mul_le_of_le_ediv hdpos h1, le_trans hqle (min_le_right _ _)⟩

theorem branch_sound (owed : Int) (change cur : Dict) (d : Int) (q : Nat)
    (Hpos : ∀ k ∈ keysOf change, 0 < k)
    (Hcur : ∀ k ∈ keysOf cur, lookupD change k ≤ 0)
    (hd : 0 < lookupD change d)
    (hq1 : 1 ≤ q)
    (hqle : (q : Int) ≤ min (Int.fdiv owed d) (lookupD change d))
    (tail' : Dict)
    (hT : TailOK (setAll change d 0) tail')
    (hv0 : 0 ≤ dictVal tail')
    (hvle : dictVal tail' ≤ owed - (q : Int) * d) :
    updIns cur d (q : Int) ++ tail' = cur ++ ((d, (q : Int)) :: tail') ∧
    TailOK change ((d, (q : Int)) :: tail') ∧
    0 ≤ dictVal ((d, (q : Int)) :: tail') ∧
    dictVal ((d, (q : Int)) :: tail') ≤ owed ∧
    (owed - (q : Int) * d) - dictVal tail' = owed - dictVal ((d, (q : Int)) :: tail') := by
  obtain ⟨hdk, hdpos, hqd, hqcnt⟩ := branch_facts owed change d q Hpos hd hqle
  have hdcur : d ∉ keysOf cur := fun hmem => absurd hd (not_lt.mpr (Hcur d hmem))
  have happ : updIns cur d (q : Int) ++ tail' = cur ++ ((d, (q : Int)) :: tail') := by
    rw [updIns_of_not_mem cur d (q : Int) hdcur, List.append_assoc]
    rfl
  have htailne : ∀ p ∈ tail', p.1 ≠ d := by
    intro p hp hpd
    obtain ⟨_, h1, h2⟩ := hT.2 p hp
    rw [hpd, lookupD_setAll_self_zero] at h2
    omega
  have hTok : TailOK change ((d, (q : Int)) :: tail') := by
    constructor
    · rw [keysOf_cons, List.nodup_cons]
      exact ⟨fun hmem => by
        rcases List.mem_map.mp hmem with ⟨p, hp, hpk⟩
        exact htailne p hp hpk, hT.1⟩
    · intro p hp
      rcases List.mem_cons.mp hp with h | h
      · rw [h]
        refine ⟨hdk, ?_, hqcnt⟩
        show (1 : Int) ≤ (q : Int)
        exact_mod_cast hq1
      · obtain ⟨h1, h2, h3⟩ := hT.2 p h
        rw [keysOf_setAll] at h1
        rw [lookupD_setAll_ne change d 0 p.1 (htailne p h)] at h3
        exact ⟨h1, h2, h3⟩
  have hdq : (0 : Int) ≤ d * (q : Int) :=
    mul_nonneg hdpos.le (by exact_mod_cast Nat.zero_le q)
  have hdv : dictVal ((d, (q : Int)) :: tail') = d * (q : Int) + dictVal tail' := by
    rw [dictVal_cons]
  have hc : d * (q : Int) = (q : Int) * d := mul_comm _ _
  refine ⟨happ, hTok, ?_, ?_, ?_⟩
  · rw [hdv]
    omega
  · rw [hdv]
    omega
  · rw [hdv]
    omega

theorem goBranches_master
    (bt : Int → Dict → Dict → Option Dict → Int → Option Dict × Int)
    (owed : Int) (change cur : Dict)
    (Hpos : ∀ k ∈ keysOf change, 0 < k)
    (Hcur : ∀ k ∈ keysOf cur, lookupD change k ≤ 0)
    (HBT : ∀ (d : Int) (q : Nat) (b : Option Dict) (l : Int),
      0 < lookupD change d → 1 ≤ q →
      (q : Int) ≤ min (Int.fdiv owed d) (lookupD change d) → 1 ≤ l →
      MSpec (owed - (q : Int) * d) (setAll change d 0) (updIns cur d (q : Int)) b l
        (bt (owed - (q : Int) * d) (setAll change d 0) (updIns cur d (q : Int)) b l)) :
    ∀ (branches : List (Int × Nat)) (best : Option Dict) (lowest : Int),
    (∀ p ∈ branches, 0 < lookupD change p.1 ∧ 1 ≤ p.2 ∧
       ((p.2 : Int) ≤ min (Int.fdiv owed p.1) (lookupD change p.1))) →
    1 ≤ lowest →
    (0 ≤ (goBranches bt owed change cur branches best lowest).2 ∧
       (goBranches bt owed change cur branches best lowest).2 ≤ lowest) ∧
    (∀ p ∈ branches, ∀ T : Int, 0 ≤ T →
       (∀ (b : Option Dict) (l : Int), 1 ≤ l →
         (bt (owed - (p.2 : Int) * p.1) (setAll change p.1 0)
             (updIns cur p.1 (p.2 : Int)) b l).2 ≤ T) →
       (goBranches bt owed change cur branches best lowest).2 ≤ T) ∧
    (((goBranches bt owed change cur branches best lowest).1 = best ∧
        (goBranches bt owed change cur branches best lowest).2 = lowest) ∨
     ∃ tail, (goBranches bt owed change cur branches best lowest).1 = some (cur ++ tail) ∧
       TailOK change tail ∧ 0 ≤ dictVal tail ∧ dictVal tail ≤ owed ∧
       (goBranches bt owed change cur branches best lowest).2 = owed - dictVal tail) := by
  intro branches
  induction branches with
  | nil =>
    intro best lowest _ hlow
    refine ⟨⟨by simpa [goBranches] using by omega, by simp [goBranches]⟩, ?_, ?_⟩
    · intro p hp
      simp at hp
    · left
      constructor <;> simp [goBranches]
  | cons b rest ih =>
    intro best lowest hbr hlow
    obtain ⟨d, q⟩ := b
    obtain ⟨hd, hq1, hqle⟩ := hbr (d, q) (List.mem_cons_self _ _)
    have hbrrest : ∀ p ∈ rest, 0 < lookupD change p.1 ∧ 1 ≤ p.2 ∧
        ((p.2 : Int) ≤ min (Int.fdiv owed p.1) (lookupD change p.1)) :=
      fun p hp => hbr p (List.mem_cons_of_mem _ hp)
    have MS := HBT d q best lowest hd hq1 hqle hlow
    obtain ⟨⟨ms1, ms2, ms3⟩, msB, msC⟩ := MS
    set r' := bt (owed - (q : Int) * d) (setAll change d 0) (updIns cur d (q : Int))
        best lowest with hr'
    have hgo : goBranches bt owed change cur ((d, q) :: rest) best lowest =
        (if r'.2 = 0 then (r'.1, 0)
         else if r'.2 < lowest then goBranches bt owed change cur rest r'.1 r'.2
         else goBranches bt owed change cur rest best lowest) := by
      simp only [goBranches]
    have headSound : r'.2 ≠ lowest ∨ r'.1 = best →
        r'.2 ≠ lowest →
        ∃ tail, r'.1 = some (cur ++ tail) ∧ TailOK change tail ∧
          0 ≤ dictVal tail ∧ dictVal tail ≤ owed ∧ r'.2 = owed - dictVal tail := by
      intro _ hne
      rcases msC with ⟨_, h⟩ | ⟨tail', ht1, ht2, ht3, ht4, ht5⟩
      · exact absurd h hne
      · obtain ⟨happ, hTok, hv0, hvle, heq⟩ :=
          branch_sound owed change cur d q Hpos Hcur hd hq1 hqle tail' ht2 ht3 ht4
        exact ⟨(d, (q : Int)) :: tail', by rw [ht1, happ], hTok, hv0, hvle, by omega⟩
    by_cases h0 : r'.2 = 0
    · rw [hgo, if_pos h0]
      have hne : r'.2 ≠ lowest := by omega
      obtain ⟨tail, ht⟩ := headSound (Or.inl hne) hne
      refine ⟨⟨le_refl 0, by omega⟩, ?_, ?_⟩
      · intro p _ T hT _
        exact hT
      · right
        exact ⟨tail, ht.1, ht.2.1, ht.2.2.1, ht.2.2.2.1, by omega⟩
    · by_cases hlt : r'.2 < lowest
      · rw [hgo, if_neg h0, if_pos hlt]
        have hlow' : 1 ≤ r'.2 := by omega
        obtain ⟨⟨g1, g2⟩, gB, gC⟩ := ih r'.1 r'.2 hbrrest hlow'
        refine ⟨⟨g1, by omega⟩, ?_, ?_⟩
        · intro p hp T hT hbound
          rcases List.mem_cons.mp hp with h | h
          · have : r'.2 ≤ T := by
              have := hbound best lowest hlow
              rw [h] at this
              simpa [hr'] using this
            omega
          · exact gB p h T hT hbound
        · rcases gC with ⟨hc1, hc2⟩ | ⟨tail, ht⟩
          · right
            have hne : r'.2 ≠ lowest := by omega
            obtain ⟨tail, ht⟩ := headSound (Or.inl hne) hne
            exact ⟨tail, by rw [hc1, ht.1], ht.2.1, ht.2.2.1, ht.2.2.2.1, by
              rw [hc2, ht.2.2.2.2]⟩
          · right
            exact ⟨tail, ht⟩
      · rw [hgo, if_neg h0, if_neg hlt]
        obtain ⟨⟨g1, g2⟩, gB, gC⟩ := ih best lowest hbrrest hlow
        refine ⟨⟨g1, g2⟩, ?_, gC⟩
        intro p hp T hT hbound
        rcases List.mem_cons.mp hp with h | h
        · have : r'.2 ≤ T := by
            have := hbound best lowest hlow
            rw [h] at this
            simpa [hr'] using this
          omega
        · exact gB p h T hT hbound

theorem backtrack_master :
    ∀ (fuel : Nat) (owed : Int) (change cur : Dict) (best : Option Dict) (lowest : Int),
    posCount change < fuel →
    (keysOf change).Nodup →
    (∀ k ∈ keysOf change, 0 < k) →
    0 ≤ owed →
    1 ≤ lowest →
    (∀ k ∈ keysOf cur, lookupD change k ≤ 0) →
    MSpec owed change cur best lowest (backtrack fuel owed change cur best lowest) := by
  intro fuel
  induction fuel with
  | zero =>
    intro owed change cur best lowest hf
    omega
  | succ fuel ih =>
    intro owed change cur best lowest hf Hnd Hpos How Hlow Hcur
    by_cases h0 : owed = 0
    · subst h0
      have hbt : backtrack (fuel + 1) 0 change cur best lowest = (some cur, 0) := by
        simp [backtrack]
      rw [hbt]
      refine ⟨⟨le_refl 0, by omega, le_refl 0⟩, ?_, ?_⟩
      · intro f _ _ hfval
        simp only
        omega
      · right
        exact ⟨[], by simp, ⟨by simp [keysOf], by simp⟩, le_refl 0, le_refl 0,
          by simp [dictVal]⟩
    · have hbt : backtrack (fuel + 1) owed change cur best lowest =
          goBranches (backtrack fuel) owed change cur
            (branchList owed change)
            (if owed < lowest then some cur else best)
            (if owed < lowest then owed else lowest) := by
        simp only [backtrack]
        rw [if_neg h0]
      rw [hbt]
      have hL1 : 1 ≤ (if owed < lowest then owed else lowest) := by split <;> omega
      have hLle : (if owed < lowest then owed else lowest) ≤ owed := by split <;> omega
      have hLlow : (if owed < lowest then owed else lowest) ≤ lowest := by split <;> omega
      have HBT : ∀ (d : Int) (q : Nat) (b : Option Dict) (l : Int),
          0 < lookupD change d → 1 ≤ q →
          (q : Int) ≤ min (Int.fdiv owed d) (lookupD change d) → 1 ≤ l →
          MSpec (owed - (q : Int) * d) (setAll change d 0) (updIns cur d (q : Int)) b l
            (backtrack fuel (owed - (q : Int) * d)
              (setAll change d 0) (updIns cur d (q : Int)) b l) := by
        intro d q b l hd hq1 hqle hl
        obtain ⟨hdk, hdpos, hqd, _⟩ := branch_facts owed change d q Hpos hd hqle
        have hfuel : posCount (setAll change d 0) < fuel := by
          have := posCount_setAll_zero_lt change d hd
          omega
        have hnd' : (keysOf (setAll change d 0)).Nodup := by
          rw [keysOf_setAll]
          exact Hnd
        have hpos' : ∀ k ∈ keysOf (setAll change d 0), 0 < k := by
          rw [keysOf_setAll]
          exact Hpos
        have how' : 0 ≤ owed - (q : Int) * d := by omega
        have hcur' : ∀ k ∈ keysOf (updIns cur d (q : Int)),
            lookupD (setAll change d 0) k ≤ 0 := by
          intro k hk
          have hdcur : d ∉ keysOf cur := fun hmem => absurd hd (not_lt.mpr (Hcur d hmem))
          rw [updIns_of_not_mem cur d _ hdcur, keysOf_append] at hk
          rcases List.mem_append.mp hk with hk | hk
          · by_cases hkd : k = d
            · rw [hkd, lookupD_setAll_self_zero]
            · rw [lookupD_setAll_ne change d 0 k hkd]
              exact Hcur k hk
          · have : k = d := by simpa [keysOf] using hk
            rw [this, lookupD_setAll_self_zero]
        exact ih (owed - (q : Int) * d) (setAll change d 0) (updIns cur d (q : Int)) b l
          hfuel hnd' hpos' how' hl hcur'
      have hbr : ∀ p ∈ branchList owed change, 0 < lookupD change p.1 ∧ 1 ≤ p.2 ∧
          ((p.2 : Int) ≤ min (Int.fdiv owed p.1) (lookupD change p.1)) := by
        intro p hp
        obtain ⟨d, q⟩ := p
        rw [mem_branchList] at hp
        obtain ⟨h1, h2⟩ := hp
        rw [mem_positiveDenominations change d Hnd] at h1
        rw [mem_quantities] at h2
        exact ⟨h1, h2.1, h2.2⟩
      obtain ⟨⟨g1, g2⟩, gB, gC⟩ := goBranches_master _ owed change cur Hpos Hcur HBT
        (branchList owed change) (if owed < lowest then some cur else best)
        (if owed < lowest then owed else lowest) hbr hL1
      refine ⟨⟨g1, by omega, by omega⟩, ?_, ?_⟩
      · intro f hf0 hfle hfval
        by_cases hex : ∃ k ∈ keysOf change, 0 < f k
        · obtain ⟨k₀, hk₀m, hk₀⟩ := hex
          have hd : 0 < lookupD change k₀ := lt_of_lt_of_le hk₀ (hfle k₀)
          have hk₀pos : 0 < k₀ := Hpos k₀ hk₀m
          have hq₀i : (((f k₀).toNat : Nat) : Int) = f k₀ := Int.toNat_of_nonneg (hf0 k₀)
          have hq₀1 : 1 ≤ (f k₀).toNat := by omega
          have herase := valOnKeys_erase_key (keysOf change) k₀ f Hnd hk₀m
          have hrest_nonneg :
              0 ≤ valOnKeys (keysOf change) (fun k => if k = k₀ then 0 else f k) :=
            valOnKeys_nonneg _ _ Hpos
              (fun k => by by_cases h : k = k₀ <;> simp [h, hf0 k])
          have hterm : k₀ * f k₀ ≤ valOnKeys (keysOf change) f := by omega
          have hprod : (((f k₀).toNat : Nat) : Int) * k₀ = k₀ * f k₀ := by
            rw [hq₀i]
            ring
          have hqfdiv : (((f k₀).toNat : Nat) : Int) ≤ Int.fdiv owed k₀ := by
            rw [Int.fdiv_eq_ediv _ hk₀pos.le, Int.le_ediv_iff_mul_le hk₀pos]
            omega
          have hqle : (((f k₀).toNat : Nat) : Int) ≤
              min (Int.fdiv owed k₀) (lookupD change k₀) :=
            le_min hqfdiv (by rw [hq₀i]; exact hfle k₀)
          have hmem : (k₀, (f k₀).toNat) ∈ branchList owed change := by
            rw [mem_branchList]
            exact ⟨(mem_positiveDenominations change k₀ Hnd).mpr hd,
              (mem_quantities owed change k₀ _).mpr ⟨hq₀1, hqle⟩⟩
          have hT0 : 0 ≤ owed - valOnKeys (keysOf change) f := by omega
          have hbound : ∀ (b : Option Dict) (l : Int), 1 ≤ l →
              (backtrack fuel
                (owed - (((f k₀).toNat : Nat) : Int) * k₀)
                (setAll change k₀ 0) (updIns cur k₀ (((f k₀).toNat : Nat) : Int)) b l).2 ≤
                owed - valOnKeys (keysOf change) f := by
            intro b l hl
            obtain ⟨_, msB, _⟩ := HBT k₀ (f k₀).toNat b l hd hq₀1 hqle hl
            have hkey := msB (fun k => if k = k₀ then 0 else f k)
              (fun k => by by_cases h : k = k₀ <;> simp [h, hf0 k])
              (fun k => by
                by_cases h : k = k₀
                · rw [h, lookupD_setAll_self_zero]
                  simp
                · rw [lookupD_setAll_ne change k₀ 0 k h]
                  simp [h, hfle k])
              (by rw [keysOf_setAll]; omega)
            rw [keysOf_setAll] at hkey
            omega
          exact gB (k₀, (f k₀).toNat) hmem (owed - valOnKeys (keysOf change) f) hT0 hbound
        · push_neg at hex
          have hz : valOnKeys (keysOf change) f = 0 :=
            valOnKeys_eq_zero _ _ (fun k hk => le_antisymm (hex k hk) (hf0 k))
          rw [hz]
          omega
      · rcases gC with ⟨hc1, hc2⟩ | ⟨tail, ht⟩
        · by_cases how : owed < lowest
          · right
            refine ⟨[], ?_, ⟨by simp [keysOf], by simp⟩, le_refl 0, How, ?_⟩
            · rw [hc1, if_pos how]
              simp
            · rw [hc2, if_pos how]
              simp [dictVal]
          · left
            rw [hc1, hc2, if_neg how, if_neg how]
            exact ⟨rfl, rfl⟩
        · right
          exact ⟨tail, ht⟩

/-- Soundness and optimality of `find_optimal_change`, read off
`backtrack_master` at the top-level call of `find_optimal_change`. -/
theorem find_optimal_change_spec (owed : Int) (inv : MonetaryInventory)
    (h0 : 0 ≤ owed) (h1 : owed < sysMaxsize)
    (hnd : (keysOf inv.inventory).Nodup)
    (hpos : ∀ k ∈ keysOf inv.inventory, 0 < k) :
    ∃ cfg, find_optimal_change owed inv = some cfg ∧
      0 ≤ cfg.owed ∧ cfg.owed ≤ owed ∧
      dictVal cfg.configuration = owed - cfg.owed ∧
      TailOK inv.inventory cfg.configuration ∧
      (∀ f : Int → Int, (∀ k, 0 ≤ f k) → (∀ k, f k ≤ lookupD inv.inventory k) →
         valOnKeys (keysOf inv.inventory) f ≤ owed →
         cfg.owed ≤ owed - valOnKeys (keysOf inv.inventory) f) := by
  have hfuel : posCount inv.inventory < inv.inventory.length + 1 := by
    have := List.length_filter_le (fun p : Int × Int => decide (0 < p.2)) inv.inventory
    simp only [posCount]
    omega
  have MS := backtrack_master (inv.inventory.length + 1) owed inv.inventory [] none
    sysMaxsize hfuel hnd hpos h0 (by rw [sysMaxsize]; omega) (by simp [keysOf])
  rcases hre : backtrack (inv.inventory.length + 1) owed inv.inventory [] none sysMaxsize
    with ⟨res, low⟩
  rw [hre] at MS
  obtain ⟨⟨m1, m2, m3⟩, mB, mC⟩ := MS
  rcases mC with ⟨_, hc2⟩ | ⟨tail, ht1, ht2, ht3, ht4, ht5⟩
  · exfalso
    simp only at hc2 m3
    omega
  · simp only at ht1 ht5 m1 m3
    rw [List.nil_append] at ht1
    refine ⟨⟨low, tail⟩, ?_, m1, m3, by simp only; omega, ht2, ?_⟩
    · rw [find_optimal_change]
      rw [hre, ht1]
    · intro f hf0 hfle hfval
      exact mB f hf0 hfle hfval

/-- A solution drawn from an inventory with positive denominations has
nonnegative value, and value zero only when it is empty. -/
theorem dictVal_nonneg_of_TailOK (change tail : Dict)
    (hpos : ∀ k ∈ keysOf change, 0 < k) (hT : TailOK change tail) :
    0 ≤ dictVal tail ∧ (dictVal tail = 0 → tail = []) := by
  induction tail with
  | nil => exact ⟨le_refl 0, fun _ => rfl⟩
  | cons p t ih =>
    obtain ⟨hk, hq1, _⟩ := hT.2 p (List.mem_cons_self p t)
    have hT' : TailOK change t := by
      refine ⟨?_, fun x hx => hT.2 x (List.mem_cons_of_mem p hx)⟩
      have := hT.1
      rw [keysOf_cons, List.nodup_cons] at this
      exact this.2
    obtain ⟨ih1, _⟩ := ih hT'
    have hppos : 0 < p.1 := hpos p.1 hk
    have hhead : 1 ≤ p.1 * p.2 := by
      calc (1 : Int) = 1 * 1 := by ring
        _ ≤ p.1 * p.2 := mul_le_mul (by omega) hq1 (by omega) (by omega)
    rw [dictVal_cons]
    constructor
    · omega
    · intro h
      exfalso
      omega

theorem find?_key_isSome_iff (d : Dict) (k : Int) :
    (d.find? (fun p => p.1 == k)).isSome ↔ k ∈ keysOf d := by
  induction d with
  | nil => simp [keysOf]
  | cons p t ih =>
    rw [List.find?_cons, keysOf_cons, List.mem_cons]
    by_cases hp : p.1 = k
    · simp [hp]
    · have : (p.1 == k) = false := by simpa using hp
      rw [this]
      simp only [ih]
      constructor
      · exact Or.inr
      · rintro (h | h)
        · exact absurd h.symm hp
        · exact h

theorem lookupD_append (a b : Dict) (k : Int) :
    lookupD (a ++ b) k = if k ∈ keysOf a then lookupD a k else lookupD b k := by
  rw [lookupD, List.find?_append]
  by_cases h : k ∈ keysOf a
  · rw [if_pos h]
    have := (find?_key_isSome_iff a k).mpr h
    rcases Option.isSome_iff_exists.mp this with ⟨p, hp⟩
    rw [hp]
    simp [lookupD, hp]
  · rw [if_neg h]
    have : (a.find? (fun p => p.1 == k)) = none := by
      rw [← Option.not_isSome_iff_eq_none, find?_key_isSome_iff]
      exact h
    rw [this]
    simp [lookupD]

theorem lookupD_updIns (d : Dict) (k v k' : Int) :
    lookupD (updIns d k v) k' = if k' = k then v else lookupD d k' := by
  rw [updIns]
  by_cases h : (d.find? (fun p => p.1 == k)).isSome
  · rw [if_pos h]
    have hk : k ∈ keysOf d := (find?_key_isSome_iff d k).mp h
    by_cases hk' : k' = k
    · rw [hk', lookupD_setAll_self, if_pos hk, if_pos rfl]
    · rw [lookupD_setAll_ne d k v k' hk', if_neg hk']
  · rw [if_neg h]
    have hk : k ∉ keysOf d := fun hm => h ((find?_key_isSome_iff d k).mpr hm)
    rw [lookupD_append]
    by_cases hk' : k' = k
    · rw [if_neg (hk' ▸ hk), if_pos hk']
      subst hk'
      simp [lookupD]
    · rw [if_neg hk']
      by_cases hm : k' ∈ keysOf d
      · rw [if_pos hm]
      · rw [if_neg hm, lookupD_eq_zero_of_not_mem d k' hm]
        have hkk : ¬ (k = k') := fun hh => hk' hh.symm
        simp [lookupD, hkk]

theorem mem_keysOf_updIns (d : Dict) (k v k' : Int) :
    k' ∈ keysOf (updIns d k v) ↔ k' = k ∨ k' ∈ keysOf d := by
  rw [updIns]
  by_cases h : (d.find? (fun p => p.1 == k)).isSome
  · rw [if_pos h]
    rw [keysOf_setAll]
    have hk : k ∈ keysOf d := (find?_key_isSome_iff d k).mp h
    constructor
    · exact Or.inr
    · rintro (rfl | hm)
      · exact hk
      · exact hm
  · rw [if_neg h, keysOf_append]
    simp only [List.mem_append, keysOf, List.map_cons, List.map_nil, List.mem_cons,
      List.not_mem_nil, or_false]
    tauto

theorem nodup_keysOf_updIns (d : Dict) (k v : Int)
    (hnd : (keysOf d).Nodup) : (keysOf (updIns d k v)).Nodup := by
  rw [updIns]
  by_cases h : (d.find? (fun p => p.1 == k)).isSome
  · rw [if_pos h, keysOf_setAll]
    exact hnd
  · rw [if_neg h, keysOf_append]
    have hk : k ∉ keysOf d := fun hm => h ((find?_key_isSome_iff d k).mpr hm)
    simp only [keysOf, List.map_cons, List.map_nil]
    rw [List.nodup_append]
    refine ⟨hnd, List.nodup_singleton k, ?_⟩
    intro x hx
    simp only [List.mem_singleton]
    exact fun hxk => hk (hxk ▸ hx)

/-- `remove_change` succeeds when every requested quantity is within the
available count (keys pairwise distinct), and then decrements pointwise. -/
theorem removeChangeLoop_ok (tail : Dict) :
    ∀ (inv : Dict),
    (keysOf tail).Nodup →
    (∀ p ∈ tail, p.1 ∈ keysOf inv ∧ p.2 ≤ lookupD inv p.1) →
    (removeChangeLoop inv tail).2 = none ∧
    (∀ k, lookupD (removeChangeLoop inv tail).1 k = lookupD inv k - lookupD tail k) := by
  induction tail with
  | nil =>
    intro inv _ _
    exact ⟨rfl, fun k => by simp [removeChangeLoop, lookupD]⟩
  | cons p t ih =>
    intro inv hnd hb
    obtain ⟨hk, hq⟩ := hb p (List.mem_cons_self p t)
    rw [keysOf_cons, List.nodup_cons] at hnd
    have hstep : removeChangeLoop inv ((p.1, p.2) :: t) =
        removeChangeLoop (updIns inv p.1 (lookupD inv p.1 - p.2)) t := by
      rw [removeChangeLoop]
      rw [if_neg (by omega)]
    have hb' : ∀ x ∈ t, x.1 ∈ keysOf (updIns inv p.1 (lookupD inv p.1 - p.2)) ∧
        x.2 ≤ lookupD (updIns inv p.1 (lookupD inv p.1 - p.2)) x.1 := by
      intro x hx
      obtain ⟨h1, h2⟩ := hb x (List.mem_cons_of_mem p hx)
      have hxk : x.1 ≠ p.1 := by
        intro hh
        exact hnd.1 (hh ▸ List.mem_map_of_mem Prod.fst hx)
      rw [mem_keysOf_updIns, lookupD_updIns, if_neg hxk]
      exact ⟨Or.inr h1, h2⟩
    obtain ⟨ih1, ih2⟩ := ih (updIns inv p.1 (lookupD inv p.1 - p.2)) hnd.2 hb'
    have hpeta : ((p.1, p.2) : Int × Int) = p := rfl
    rw [hpeta] at hstep
    refine ⟨by rw [hstep]; exact ih1, ?_⟩
    intro k
    rw [hstep, ih2 k, lookupD_updIns, lookupD_cons]
    by_cases hk' : k = p.1
    · subst hk'
      rw [if_pos rfl, if_pos rfl]
      have : lookupD t p.1 = 0 := lookupD_eq_zero_of_not_mem t p.1 hnd.1
      omega
    · rw [if_neg hk', if_neg (fun hh : p.1 = k => hk' hh.symm)]

/-! ### Helper lemmas about the catalogue -/

theorem catLookup_nil (k : Int) : catLookup [] k = none := rfl

theorem catLookup_cons (p : Int × ProductInfo) (t : Catalogue) (k : Int) :
    catLookup (p :: t) k = if p.1 = k then some p.2 else catLookup t k := by
  by_cases h : p.1 = k
  · simp [catLookup, List.find?_cons, h]
  · simp [catLookup, List.find?_cons, h]

theorem catLookup_filter_key (c : Catalogue) (P : Int → Bool) (k : Int) :
    catLookup (c.filter (fun p => P p.1)) k = if P k then catLookup c k else none := by
  induction c with
  | nil => simp [catLookup]
  | cons p t ih =>
    rw [List.filter_cons]
    by_cases hp : p.1 = k
    · subst hp
      by_cases hP : P p.1
      · rw [if_pos (by simpa using hP), catLookup_cons, if_pos rfl, if_pos hP,
          catLookup_cons, if_pos rfl]
      · rw [if_neg (by simpa using hP), ih, if_neg hP, if_neg hP]
    · by_cases hP : P p.1
      · rw [if_pos (by simpa using hP), catLookup_cons, if_neg hp, ih]
        by_cases hPk : P k
        · rw [if_pos hPk, if_pos hPk, catLookup_cons, if_neg hp]
        · rw [if_neg hPk, if_neg hPk]
      · rw [if_neg (by simpa using hP), ih]
        by_cases hPk : P k
        · rw [if_pos hPk, if_pos hPk, catLookup_cons, if_neg hp]
        · rw [if_neg hPk, if_neg hPk]

theorem catLookup_get_offer (s : Stock) (k : Int) :
    catLookup s.get_offer k =
      if (s.products k).isEmpty then none else catLookup s.catalogue k := by
  rw [Stock.get_offer]
  have := catLookup_filter_key s.catalogue (fun x => !(s.products x).isEmpty) k
  rw [this]
  by_cases h : (s.products k).isEmpty
  · rw [if_pos h, if_neg (by simp [h])]
  · rw [if_neg h, if_pos (by simp [h])]

theorem catLookup_map_override (old new : Catalogue) (k : Int) :
    catLookup (old.map (fun p =>
      match new.find? (fun q => q.1 == p.1) with
      | some q => (p.1, q.2)
      | none => p)) k =
    match catLookup old k with
    | none => none
    | some v =>
      match catLookup new k with
      | some w => some w
      | none => some v := by
  induction old with
  | nil => simp [catLookup]
  | cons p t ih =>
    rw [List.map_cons, catLookup_cons, catLookup_cons]
    cases hf : new.find? (fun q => q.1 == p.1) with
    | none =>
      have hnone : catLookup new p.1 = none := by
        rw [catLookup, hf]
        rfl
      by_cases hp : p.1 = k
      · rw [if_pos hp, if_pos hp]
        subst hp
        rw [hnone]
      · rw [if_neg hp, if_neg hp]
        exact ih
    | some q =>
      have hsome : catLookup new p.1 = some q.2 := by
        rw [catLookup, hf]
        rfl
      by_cases hp : p.1 = k
      · rw [if_pos hp, if_pos hp]
        subst hp
        rw [hsome]
      · rw [if_neg hp, if_neg hp]
        exact ih

/-- The keys of a catalogue, in insertion order. -/
def catKeys (c : Catalogue) : List Int := c.map Prod.fst

theorem catFind_isSome_iff (c : Catalogue) (k : Int) :
    (c.find? (fun p => p.1 == k)).isSome ↔ k ∈ catKeys c := by
  induction c with
  | nil => simp [catKeys]
  | cons p t ih =>
    rw [List.find?_cons, catKeys, List.map_cons, List.mem_cons]
    by_cases hp : p.1 = k
    · simp [hp]
    · have : (p.1 == k) = false := by simpa using hp
      rw [this]
      rw [catKeys] at ih
      rw [ih]
      constructor
      · exact Or.inr
      · rintro (h | h)
        · exact absurd h.symm hp
        · exact h

theorem catLookup_isSome_iff (c : Catalogue) (k : Int) :
    (catLookup c k).isSome ↔ k ∈ catKeys c := by
  rw [catLookup, ← catFind_isSome_iff c k]
  cases c.find? (fun p => p.1 == k) <;> simp

theorem catLookup_eq_none_of_not_mem (c : Catalogue) (k : Int) (h : k ∉ catKeys c) :
    catLookup c k = none := by
  rw [← Option.not_isSome_iff_eq_none, catLookup_isSome_iff]
  exact h

theorem catLookup_append (a b : Catalogue) (k : Int) :
    catLookup (a ++ b) k = if k ∈ catKeys a then catLookup a k else catLookup b k := by
  rw [catLookup, List.find?_append]
  by_cases h : k ∈ catKeys a
  · rw [if_pos h]
    rcases Option.isSome_iff_exists.mp ((catFind_isSome_iff a k).mpr h) with ⟨p, hp⟩
    rw [hp]
    simp [catLookup, hp]
  · rw [if_neg h]
    have : (a.find? (fun p => p.1 == k)) = none := by
      rw [← Option.not_isSome_iff_eq_none, catFind_isSome_iff]
      exact h
    rw [this]
    simp [catLookup]

theorem catKeys_map_override (old new : Catalogue) :
    catKeys (old.map (fun p =>
      match new.find? (fun q => q.1 == p.1) with
      | some q => (p.1, q.2)
      | none => p)) = catKeys old := by
  induction old with
  | nil => rfl
  | cons p t ih =>
    simp only [catKeys, List.map_cons] at ih ⊢
    rw [ih]
    cases hf : new.find? (fun q => q.1 == p.1) <;> rfl

theorem catLookup_catMerge (old new : Catalogue) (k : Int) :
    catLookup (catMerge old new) k =
      match catLookup new k with
      | some w => some w
      | none => catLookup old k := by
  rw [catMerge, catLookup_append]
  by_cases hold : k ∈ catKeys (old.map (fun p =>
      match new.find? (fun q => q.1 == p.1) with
      | some q => (p.1, q.2)
      | none => p))
  · rw [if_pos hold]
    rw [catKeys_map_override] at hold
    rw [catLookup_map_override]
    rcases Option.isSome_iff_exists.mp ((catLookup_isSome_iff old k).mpr hold) with ⟨v, hv⟩
    rw [hv]
  · rw [if_neg hold]
    rw [catKeys_map_override] at hold
    have hnone : catLookup old k = none := catLookup_eq_none_of_not_mem old k hold
    have hany : old.any (fun p => p.1 == k) = false := by
      rw [List.any_eq_false]
      intro p hp h
      have hpk : p.1 = k := by simpa using h
      exact hold (hpk ▸ List.mem_map_of_mem Prod.fst hp)
    have hP : (!(old.any (fun p => p.1 == k))) = true := by
      rw [hany]
      rfl
    have := catLookup_filter_key new (fun x => !(old.any (fun p => p.1 == x))) k
    rw [this, if_pos hP, hnone]
    cases catLookup new k <;> rfl

/-! ### Concrete machines and claim theorems -/

/-- The stock of the repository's test fixture
(test_vending_machine.py, `setup_method`). -/
def sampleStock : Stock :=
  Stock.add_products
    ⟨[(1, ⟨"Soda", 210⟩), (2, ⟨"Water", 100⟩), (3, ⟨"Ice tea", 195⟩)], fun _ => []⟩
    [⟨1⟩, ⟨1⟩, ⟨2⟩, ⟨3⟩]

/-- The machine of the repository's test fixture: IDLE, the sample stock,
inventory {100: 5, 10: 3}, and the default supported denominations. -/
def sampleMachine : Machine where
  state := .IDLE
  stock := sampleStock
  monetary_inventory := ⟨[(100, 5), (10, 3)], [200, 100, 50, 20, 10, 5, 2, 1]⟩
  selected_product := none
  customer_balance := 0
  dispatched := []
  cash_sent := []

/-- Fire a list of triggers in order, stopping at the first error, as a
synchronous caller driving the machine would. -/
def runSeq (ts : List Trigger) (m : Machine) : Machine × Option PyErr :=
  match ts with
  | [] => (m, none)
  | t :: rest =>
    match fire t m with
    | (m', none) => runSeq rest m'
    | r => r

/-- The test-fixture machine after `start` and `select 2` (Water, price 100):
in COLLECTING_PAYMENT with balance 0. -/
def sampleCollecting : Machine := (runSeq [.start, .select 2] sampleMachine).1

/-- C1 (code bug): the transaction session state is not reset when `start`
fires.  On the test fixture, the completed purchase `start; select 2;
insert 200; checkout` returns to IDLE with `customer_balance` still 100 —
the change was physically dispensed but no transition or callback ever zeroes
the balance field — and the following `start` begins a new transaction with
that stale balance instead of 0.  On the cancelled-transaction path `start;
select 3; insert 200; checkout; cancel`, both the balance (200) and
`selected_product` (3) carry over into the next transaction. -/
theorem session_state_not_reset_on_start :
    (runSeq [.start, .select 2, .insert 200, .checkout] sampleMachine).2 = none ∧
    (runSeq [.start, .select 2, .insert 200, .checkout] sampleMachine).1.state = .IDLE ∧
    (runSeq [.start, .select 2, .insert 200, .checkout]
        sampleMachine).1.customer_balance = 100 ∧
    (runSeq [.start, .select 2, .insert 200, .checkout, .start] sampleMachine).1.state =
      .PRODUCT_SELECTION ∧
    (runSeq [.start, .select 2, .insert 200, .checkout, .start]
        sampleMachine).1.customer_balance = 100 ∧
    (runSeq [.start, .select 3, .insert 200, .checkout, .cancel, .start]
        sampleMachine).1.state = .PRODUCT_SELECTION ∧
    (runSeq [.start, .select 3, .insert 200, .checkout, .cancel, .start]
        sampleMachine).1.selected_product = some 3 ∧
    (runSeq [.start, .select 3, .insert 200, .checkout, .cancel, .start]
        sampleMachine).1.customer_balance = 200 :=
  ⟨rfl, rfl, rfl, rfl, rfl, rfl, rfl, rfl⟩

/-- C4 (code bug): inserting the unsupported denomination 3 in
COLLECTING_PAYMENT raises `ValueError` and leaves the monetary inventory and
the state unchanged — but `_insert` increments the customer balance before
constructing the `Denomination` and adding it, so the balance is already 3
when the error propagates: the insert is not rejected before any mutation. -/
theorem insert_unsupported_raises_after_balance_mutation :
    (fire (.insert 3) sampleCollecting).2 = some .ValueError ∧
    (fire (.insert 3) sampleCollecting).1.state = .COLLECTING_PAYMENT ∧
    (fire (.insert 3) sampleCollecting).1.monetary_inventory =
      sampleCollecting.monetary_inventory ∧
    sampleCollecting.customer_balance = 0 ∧
    (fire (.insert 3) sampleCollecting).1.customer_balance = 3 :=
  ⟨rfl, rfl, rfl, rfl, rfl⟩

/-- C10: `remove_change` is not atomic on failure: removing the mapping
{100: 1, 50: 1} from the inventory {100: 1, 50: 0} raises the underflow
`RuntimeError` on the second entry, with the first entry — processed earlier
in the mapping's iteration order — already decremented from 1 to 0. -/
theorem remove_change_partial_mutation_on_underflow :
    (MonetaryInventory.remove_change ⟨[(100, 1), (50, 0)], [100, 50]⟩
        [(100, 1), (50, 1)]).2 = some .RuntimeError ∧
    lookupD (MonetaryInventory.remove_change ⟨[(100, 1), (50, 0)], [100, 50]⟩
        [(100, 1), (50, 1)]).1.inventory 100 = 0 ∧
    lookupD (MonetaryInventory.mk [(100, 1), (50, 0)] [100, 50]).inventory 100 = 1 :=
  ⟨rfl, rfl, rfl⟩

/-- C6: for owed 80 against inventory {50: 3, 20: 4} the search returns the
exact all-twenties configuration {20: 4} with owed 0.  The first branch tried
is one 50 coin — the largest denomination with the largest quantity — and the
recursive call for that branch (the first call the top level makes, with the
50s zeroed out) bottoms out at remainder 10, not 0, so the search backtracks
past the 50 to the all-20 solution. -/
theorem backtracking_past_overshooting_fifty :
    find_optimal_change 80 ⟨[(50, 3), (20, 4)], [50, 20]⟩ =
      some ⟨0, [(20, 4)]⟩ ∧
    (branchList 80 [(50, 3), (20, 4)]).head? = some (50, 1) ∧
    (backtrack 2 (80 - (1 : Int) * 50) (setAll [(50, 3), (20, 4)] 50 0)
        (updIns [] 50 1) (some []) 80).2 = 10 :=
  ⟨rfl, rfl, rfl⟩

/-- C5 counterexample: at `owed_amount = sys.maxsize` — a non-negative owed
amount — with an empty inventory, the top-level `owed < lowest_owed` check
fails, `best_solution` is never set, and `find_optimal_change` returns
`None`. -/
theorem find_optimal_change_none_at_maxsize :
    0 ≤ sysMaxsize ∧ find_optimal_change sysMaxsize ⟨[], []⟩ = none :=
  ⟨by norm_num [sysMaxsize], rfl⟩

/-- C5 amended: for every owed amount with `0 ≤ owed_amount < sys.maxsize` and
every inventory whose denominations are positive, `find_optimal_change`
returns some configuration (possibly empty, with `owed` between 0 and
`owed_amount`); for `owed_amount = 0` it returns the exact, empty
configuration. -/
theorem find_optimal_change_always_some (owed : Int) (inv : MonetaryInventory)
    (h0 : 0 ≤ owed) (h1 : owed < sysMaxsize)
    (hnd : (keysOf inv.inventory).Nodup)
    (hpos : ∀ k ∈ keysOf inv.inventory, 0 < k) :
    ∃ cfg, find_optimal_change owed inv = some cfg ∧ 0 ≤ cfg.owed ∧ cfg.owed ≤ owed ∧
      (owed = 0 → cfg = ⟨0, []⟩) := by
  obtain ⟨cfg, hfo, hc0, hcle, _, _, _⟩ := find_optimal_change_spec owed inv h0 h1 hnd hpos
  refine ⟨cfg, hfo, hc0, hcle, ?_⟩
  intro hz
  subst hz
  have hzero : find_optimal_change 0 inv = some ⟨0, []⟩ := by
    simp [find_optimal_change, backtrack]
  rw [hzero] at hfo
  exact (Option.some_inj.mp hfo).symm

/-- Witness for the amended C5 at owed 80 and inventory {50: 3, 20: 4}. -/
theorem find_optimal_change_always_some_witness :
    ∃ cfg, find_optimal_change 80 ⟨[(50, 3), (20, 4)], [50, 20]⟩ = some cfg ∧
      0 ≤ cfg.owed ∧ cfg.owed ≤ 80 ∧ ((80 : Int) = 0 → cfg = ⟨0, []⟩) :=
  find_optimal_change_always_some 80 ⟨[(50, 3), (20, 4)], [50, 20]⟩ (by norm_num)
    (by norm_num [sysMaxsize]) (by decide) (by decide)

/-- C7: `find_optimal_change` returns a configuration drawn from within the
inventory's counts whose value accounts exactly for `owed_amount - owed`, and
whose final remainder `owed` is least among all selections within the
inventory's counts whose value does not exceed the owed amount — the whole
search space; in particular, for owed 50 against {100: 2, 200: 1} it returns
the empty configuration with owed 50. -/
theorem find_optimal_change_minimizes_remainder (owed : Int) (inv : MonetaryInventory)
    (h0 : 0 ≤ owed) (h1 : owed < sysMaxsize)
    (hnd : (keysOf inv.inventory).Nodup)
    (hpos : ∀ k ∈ keysOf inv.inventory, 0 < k) :
    (∃ cfg, find_optimal_change owed inv = some cfg ∧
      TailOK inv.inventory cfg.configuration ∧
      dictVal cfg.configuration = owed - cfg.owed ∧
      (∀ f : Int → Int, (∀ k, 0 ≤ f k) → (∀ k, f k ≤ lookupD inv.inventory k) →
         valOnKeys (keysOf inv.inventory) f ≤ owed →
         cfg.owed ≤ owed - valOnKeys (keysOf inv.inventory) f)) ∧
    find_optimal_change 50 ⟨[(100, 2), (200, 1)], [100, 200]⟩ = some ⟨50, []⟩ := by
  refine ⟨?_, rfl⟩
  obtain ⟨cfg, hfo, _, _, hval, hT, hopt⟩ := find_optimal_change_spec owed inv h0 h1 hnd hpos
  exact ⟨cfg, hfo, hT, hval, hopt⟩

/-- Witness for C7 at owed 80 and inventory {50: 3, 20: 4}. -/
theorem find_optimal_change_minimizes_remainder_witness :
    (∃ cfg, find_optimal_change 80 ⟨[(50, 3), (20, 4)], [50, 20]⟩ = some cfg ∧
      TailOK (MonetaryInventory.mk [(50, 3), (20, 4)] [50, 20]).inventory
        cfg.configuration ∧
      dictVal cfg.configuration = 80 - cfg.owed ∧
      (∀ f : Int → Int, (∀ k, 0 ≤ f k) →
         (∀ k, f k ≤ lookupD (MonetaryInventory.mk [(50, 3), (20, 4)] [50, 20]).inventory k) →
         valOnKeys (keysOf (MonetaryInventory.mk [(50, 3), (20, 4)] [50, 20]).inventory) f ≤ 80 →
         cfg.owed ≤ 80 - valOnKeys
           (keysOf (MonetaryInventory.mk [(50, 3), (20, 4)] [50, 20]).inventory) f)) ∧
    find_optimal_change 50 ⟨[(100, 2), (200, 1)], [100, 200]⟩ = some ⟨50, []⟩ :=
  find_optimal_change_minimizes_remainder 80 ⟨[(50, 3), (20, 4)], [50, 20]⟩ (by norm_num)
    (by norm_num [sysMaxsize]) (by decide) (by decide)

/-- C8: a trigger whose declared source states do not include the machine's
current state raises `MachineError` and returns the machine unchanged — state,
customer balance, selection, monetary inventory and stock are all untouched.
In particular `start_maintenance` outside IDLE and `start` in
MAINTENANCE_MODE are rejected this way. -/
theorem invalid_source_raises_without_mutation (m : Machine) (t : Trigger)
    (h : m.state ∉ sources t) :
    fire t m = (m, some .MachineError) := by
  obtain ⟨st, stock, minv, sel, bal, disp, sent⟩ := m
  cases t <;> cases st <;>
    first
      | rfl
      | exact absurd (by simp [sources]) h

/-- Witness for C8: `start_maintenance` from COLLECTING_PAYMENT (and `start`
from MAINTENANCE_MODE) raise `MachineError` with the machine unchanged. -/
theorem invalid_source_raises_without_mutation_witness :
    (sampleCollecting.state ∉ sources .start_maintenance ∧
      fire .start_maintenance sampleCollecting = (sampleCollecting, some .MachineError)) ∧
    ((runSeq [.start_maintenance] sampleMachine).1.state ∉ sources Trigger.start ∧
      fire .start (runSeq [.start_maintenance] sampleMachine).1 =
        ((runSeq [.start_maintenance] sampleMachine).1, some .MachineError)) :=
  ⟨⟨by decide,
      invalid_source_raises_without_mutation sampleCollecting .start_maintenance (by decide)⟩,
    ⟨by decide,
      invalid_source_raises_without_mutation (runSeq [.start_maintenance] sampleMachine).1
        .start (by decide)⟩⟩

/-- C9: after `update_catalogue(new_catalogue)` the catalogue is
`current_offer()` merged under `new_catalogue`: an id bound by the new
catalogue keeps the new info; an id absent from the new catalogue but with a
catalogue entry and at least one stocked unit retains its old info; an id in
neither is dropped; and an id bound by the new catalogue with no stocked units
is in the catalogue but absent from `current_offer()`. -/
theorem update_catalogue_merges_offer_under_new (s : Stock) (new : Catalogue) (id : Int) :
    (∀ info, catLookup new id = some info →
       catLookup (s.update_catalogue new).catalogue id = some info) ∧
    (∀ info, catLookup new id = none → catLookup s.catalogue id = some info →
       s.products id ≠ [] → catLookup (s.update_catalogue new).catalogue id = some info) ∧
    (catLookup new id = none →
       (catLookup s.catalogue id = none ∨ s.products id = []) →
       catLookup (s.update_catalogue new).catalogue id = none) ∧
    (∀ info, catLookup new id = some info → s.products id = [] →
       catLookup (s.update_catalogue new).catalogue id = some info ∧
       catLookup (s.update_catalogue new).get_offer id = none) := by
  have hcat : (s.update_catalogue new).catalogue = catMerge s.get_offer new := rfl
  have hprod : (s.update_catalogue new).products = s.products := rfl
  have hmerge := catLookup_catMerge s.get_offer new id
  have hoffer := catLookup_get_offer s id
  refine ⟨?_, ?_, ?_, ?_⟩
  · intro info hnew
    rw [hcat, hmerge, hnew]
  · intro info hnew hold hne
    rw [hcat, hmerge, hnew, hoffer,
      if_neg (by simpa [List.isEmpty_iff] using hne), hold]
  · intro hnew hcase
    rw [hcat, hmerge, hnew]
    show catLookup s.get_offer id = none
    rw [hoffer]
    rcases hcase with hc | hc
    · rw [hc, ite_self]
    · rw [if_pos (by simp [hc])]
  · intro info hnew hempty
    constructor
    · rw [hcat, hmerge, hnew]
    · rw [catLookup_get_offer, hprod, if_pos (by simp [hempty])]

/-- Stock used to witness the catalogue-merge claim: ids 1 and 2 catalogued,
only id 1 stocked. -/
def witnessStock : Stock :=
  ⟨[(1, ⟨"A", 50⟩), (2, ⟨"B", 60⟩)], fun i => if i = 1 then [⟨1⟩] else []⟩

/-- Witness for C9: id 1 is absent from the new catalogue but catalogued and
stocked, so it retains its old info after the update. -/
theorem update_catalogue_merges_offer_under_new_witness :
    catLookup ((witnessStock.update_catalogue
      [(2, ⟨"B2", 70⟩), (9, ⟨"C", 80⟩)]).catalogue) 1 = some ⟨"A", 50⟩ :=
  (update_catalogue_merges_offer_under_new witnessStock
    [(2, ⟨"B2", 70⟩), (9, ⟨"C", 80⟩)] 1).2.1 ⟨"A", 50⟩ rfl rfl (by decide)

theorem fire_checkout_eq (m : Machine) (h : m.state = .COLLECTING_PAYMENT) :
    fire .checkout m = fireCheckout m := by
  obtain ⟨st, stock, minv, sel, bal, disp, sent⟩ := m
  cases st <;> first | rfl | exact absurd h (by simp)

/-- C2: from COLLECTING_PAYMENT with a selected, catalogued, stocked product,
the three `checkout` candidates are evaluated in declaration order: with
`customer_balance < price` the machine stays in COLLECTING_PAYMENT with no
mutation; otherwise, when the optimal change for `customer_balance - price`
exists and is exact, the balance is debited by the price and the machine
enters DISPATCHING_PRODUCT (whose auto-advancing on-enter actions then run);
otherwise — non-exact or no configuration — it moves to
CONFIRM_SMALLER_CHANGE with no other mutation. -/
theorem checkout_candidates_in_order (m : Machine) (pid price : Int)
    (hst : m.state = .COLLECTING_PAYMENT)
    (hsel : m.selected_product = some pid)
    (hpr : m.stock.get_price_of pid = some price)
    (hstock : m.stock.products pid ≠ []) :
    (m.customer_balance < price → fire .checkout m = (m, none)) ∧
    (price ≤ m.customer_balance →
      (∀ cfg, find_optimal_change (m.customer_balance - price) m.monetary_inventory =
          some cfg → cfg.owed = 0 →
        fire .checkout m =
          enterDispatchingProduct
            { m with customer_balance := m.customer_balance - price }) ∧
      (∀ cfg, find_optimal_change (m.customer_balance - price) m.monetary_inventory =
          some cfg → cfg.owed ≠ 0 →
        fire .checkout m = ({ m with state := .CONFIRM_SMALLER_CHANGE }, none)) ∧
      (find_optimal_change (m.customer_balance - price) m.monetary_inventory = none →
        fire .checkout m = ({ m with state := .CONFIRM_SMALLER_CHANGE }, none))) := by
  rw [fire_checkout_eq m hst]
  have hne : notEnoughMoney m = .ok (decide (price > m.customer_balance)) := by
    simp only [notEnoughMoney, hsel, hpr]
  constructor
  · intro hlt
    have hb : (decide (price > m.customer_balance)) = true := by simpa using hlt
    rw [hb] at hne
    simp only [fireCheckout, hne]
  · intro hge
    have hb : (decide (price > m.customer_balance)) = false := by
      simpa using not_lt.mpr hge
    rw [hb] at hne
    refine ⟨?_, ?_, ?_⟩
    · intro cfg hcfg howed
      have hcan : canReturnExactChange m = .ok true := by
        simp only [canReturnExactChange, hsel, hpr, hcfg]
        simp [ChangeConfiguration.is_exact, howed]
      have hch : chargeCustomer m =
          ({ m with customer_balance := m.customer_balance - price }, none) := by
        simp only [chargeCustomer, hsel, hpr]
      simp only [fireCheckout, hne, hcan, hch]
    · intro cfg hcfg howed
      have hcan : canReturnExactChange m = .ok false := by
        simp only [canReturnExactChange, hsel, hpr, hcfg]
        simp [ChangeConfiguration.is_exact, howed]
      simp only [fireCheckout, hne, hcan]
    · intro hnone
      have hcan : canReturnExactChange m = .ok false := by
        simp only [canReturnExactChange, hsel, hpr, hnone]
      simp only [fireCheckout, hne, hcan]

/-- Witness for C2 on the test fixture in COLLECTING_PAYMENT with Water
(price 100) selected and balance 0: the first candidate fires and the machine
stays put with no mutation. -/
theorem checkout_candidates_in_order_witness :
    sampleCollecting.customer_balance < 100 ∧
    fire .checkout sampleCollecting = (sampleCollecting, none) :=
  ⟨by decide,
    (checkout_candidates_in_order sampleCollecting 2 100 rfl rfl rfl
      (by decide)).1 (by decide)⟩

/-! ### The exact-change round trip -/

theorem runSeq_cons_ok (t : Trigger) (ts : List Trigger) (m m' : Machine)
    (h : fire t m = (m', none)) :
    runSeq (t :: ts) m = runSeq ts m' := by
  rw [runSeq, h]

theorem runSeq_singleton (t : Trigger) (m : Machine) : runSeq [t] m = fire t m := by
  rw [runSeq]
  rcases fire t m with ⟨m', e⟩
  cases e <;> rfl

theorem fire_start_eq (m : Machine) (h : m.state = .IDLE) :
    fire .start m = ({ m with state := .PRODUCT_SELECTION }, none) := by
  obtain ⟨st, stock, minv, sel, bal, disp, sent⟩ := m
  cases st <;> first | rfl | exact absurd h (by simp)

theorem fire_select_eq (m : Machine) (pid : Int) (h : m.state = .PRODUCT_SELECTION) :
    fire (.select pid) m =
      ({ m with state := .COLLECTING_PAYMENT, selected_product := some pid }, none) := by
  obtain ⟨st, stock, minv, sel, bal, disp, sent⟩ := m
  cases st <;> first | rfl | exact absurd h (by simp)

theorem fire_insert_eq (m : Machine) (d : Int) (h : m.state = .COLLECTING_PAYMENT)
    (hv : denomValid d = true) (hsup : d ∈ m.monetary_inventory.supported) :
    fire (.insert d) m =
      ({ m with
          customer_balance := m.customer_balance + d,
          monetary_inventory :=
            ⟨updIns m.monetary_inventory.inventory d
                (lookupD m.monetary_inventory.inventory d + 1),
              m.monetary_inventory.supported⟩ }, none) := by
  obtain ⟨st, stock, minv, sel, bal, disp, sent⟩ := m
  cases st
  case COLLECTING_PAYMENT =>
    show doInsert d _ = _
    rw [doInsert]
    simp only [hv, if_true]
    rw [MonetaryInventory.add_monetary_unit]
    simp only at hsup
    rw [if_pos hsup]
  all_goals exact absurd h (by simp)

/-- Number of occurrences of denomination `k` in the inserted list, as an
integer. -/
def countIn (ds : List Int) (k : Int) : Int :=
  ((ds.filter (fun d => d == k)).length : Int)

theorem countIn_nil (k : Int) : countIn [] k = 0 := rfl

theorem countIn_cons (d : Int) (ds : List Int) (k : Int) :
    countIn (d :: ds) k = (if d = k then 1 else 0) + countIn ds k := by
  by_cases h : d = k
  · simp only [countIn, List.filter_cons, h]
    simp
    omega
  · simp [countIn, List.filter_cons, h]

/-- Driving a list of valid, supported inserts from COLLECTING_PAYMENT:
no error, the state and everything but the balance and the inventory is
unchanged, the balance grows by the inserted sum, and the inventory grows
pointwise by the inserted counts, preserving distinct keys. -/
theorem runSeq_inserts (ds : List Int) :
    ∀ (m : Machine),
    m.state = .COLLECTING_PAYMENT →
    (∀ d ∈ ds, denomValid d = true ∧ d ∈ m.monetary_inventory.supported) →
    (runSeq (ds.map Trigger.insert) m).2 = none ∧
    (runSeq (ds.map Trigger.insert) m).1.state = .COLLECTING_PAYMENT ∧
    (runSeq (ds.map Trigger.insert) m).1.customer_balance = m.customer_balance + ds.sum ∧
    (runSeq (ds.map Trigger.insert) m).1.monetary_inventory.supported =
      m.monetary_inventory.supported ∧
    (runSeq (ds.map Trigger.insert) m).1.stock = m.stock ∧
    (runSeq (ds.map Trigger.insert) m).1.selected_product = m.selected_product ∧
    (∀ k, lookupD (runSeq (ds.map Trigger.insert) m).1.monetary_inventory.inventory k =
       lookupD m.monetary_inventory.inventory k + countIn ds k) ∧
    ((keysOf m.monetary_inventory.inventory).Nodup →
      (keysOf (runSeq (ds.map Trigger.insert) m).1.monetary_inventory.inventory).Nodup) ∧
    (∀ k ∈ keysOf (runSeq (ds.map Trigger.insert) m).1.monetary_inventory.inventory,
      k ∈ keysOf m.monetary_inventory.inventory ∨ k ∈ ds) := by
  induction ds with
  | nil =>
    intro m hst _
    refine ⟨rfl, hst, by simp [runSeq], rfl, rfl, rfl, ?_, fun h => h, ?_⟩
    · intro k
      simp [runSeq, countIn_nil]
    · intro k hk
      exact Or.inl hk
  | cons d ds ih =>
    intro m hst hds
    obtain ⟨hv, hsup⟩ := hds d (List.mem_cons_self d ds)
    have hfire := fire_insert_eq m d hst hv hsup
    have hcons : runSeq ((d :: ds).map Trigger.insert) m =
        runSeq (ds.map Trigger.insert)
          { m with
            customer_balance := m.customer_balance + d,
            monetary_inventory :=
              ⟨updIns m.monetary_inventory.inventory d
                  (lookupD m.monetary_inventory.inventory d + 1),
                m.monetary_inventory.supported⟩ } := by
      rw [List.map_cons]
      exact runSeq_cons_ok _ _ _ _ hfire
    set m' : Machine :=
      { m with
        customer_balance := m.customer_balance + d,
        monetary_inventory :=
          ⟨updIns m.monetary_inventory.inventory d
              (lookupD m.monetary_inventory.inventory d + 1),
            m.monetary_inventory.supported⟩ } with hm'
    have hds' : ∀ x ∈ ds, denomValid x = true ∧ x ∈ m'.monetary_inventory.supported := by
      intro x hx
      exact hds x (List.mem_cons_of_mem d hx)
    obtain ⟨i1, i2, i3, i4, i5, i6, i7, i8, i9⟩ := ih m' hst hds'
    rw [hcons]
    refine ⟨i1, i2, ?_, i4, i5, i6, ?_, ?_, ?_⟩
    · rw [i3]
      show m.customer_balance + d + ds.sum = m.customer_balance + (d :: ds).sum
      rw [List.sum_cons]
      ring
    · intro k
      rw [i7 k]
      show lookupD (updIns m.monetary_inventory.inventory d
          (lookupD m.monetary_inventory.inventory d + 1)) k + countIn ds k =
        lookupD m.monetary_inventory.inventory k + countIn (d :: ds) k
      rw [lookupD_updIns, countIn_cons]
      by_cases hk : k = d
      · rw [if_pos hk, if_pos (hk ▸ rfl), hk]
        omega
      · rw [if_neg hk, if_neg (fun hh : d = k => hk hh.symm)]
        omega
    · intro hndm
      apply i8
      exact nodup_keysOf_updIns _ _ _ hndm
    · intro k hk
      rcases i9 k hk with hk' | hk'
      · rcases (mem_keysOf_updIns _ _ _ _).mp hk' with rfl | hk''
        · exact Or.inr (List.mem_cons_self _ _)
        · exact Or.inl hk''
      · exact Or.inr (List.mem_cons_of_mem d hk')

theorem runSeq_append_ok (a b : List Trigger) :
    ∀ m, (runSeq a m).2 = none → runSeq (a ++ b) m = runSeq b (runSeq a m).1 := by
  induction a with
  | nil =>
    intro m _
    rfl
  | cons t ts ih =>
    intro m h
    rcases hf : fire t m with ⟨m', e⟩
    cases e with
    | none =>
      have h1 : runSeq (t :: ts) m = runSeq ts m' := by rw [runSeq, hf]
      have h2 : runSeq ((t :: ts) ++ b) m = runSeq (ts ++ b) m' := by
        rw [List.cons_append, runSeq, hf]
      rw [h1] at h ⊢
      rw [h2]
      exact ih m' h
    | some e =>
      rw [runSeq, hf] at h
      simp at h

theorem fire_checkout_exact (m : Machine) (pid price : Int) (cfg : ChangeConfiguration)
    (hst : m.state = .COLLECTING_PAYMENT)
    (hsel : m.selected_product = some pid)
    (hpr : m.stock.get_price_of pid = some price)
    (hge : price ≤ m.customer_balance)
    (hcfg : find_optimal_change (m.customer_balance - price) m.monetary_inventory = some cfg)
    (hex : cfg.owed = 0) :
    fire .checkout m =
      enterDispatchingProduct { m with customer_balance := m.customer_balance - price } := by
  rw [fire_checkout_eq m hst]
  have hne : notEnoughMoney m = .ok false := by
    simp only [notEnoughMoney, hsel, hpr]
    rw [decide_eq_false (not_lt.mpr hge)]
  have hcan : canReturnExactChange m = .ok true := by
    simp only [canReturnExactChange, hsel, hpr, hcfg]
    simp [ChangeConfiguration.is_exact, hex]
  have hch : chargeCustomer m =
      ({ m with customer_balance := m.customer_balance - price }, none) := by
    simp only [chargeCustomer, hsel, hpr]
  simp only [fireCheckout, hne, hcan, hch]

theorem dispatchProduct_eq (m : Machine) (pid : Int) (p : Product) (rest : List Product)
    (hsel : m.selected_product = some pid)
    (hsplit : m.stock.products pid = p :: rest) :
    dispatchProduct m =
      ({ m with
          stock := ⟨m.stock.catalogue,
            fun i => if i = pid then rest else m.stock.products i⟩,
          selected_product := none,
          dispatched := m.dispatched ++ [p] }, none) := by
  rw [dispatchProduct]
  simp only [hsel]
  rw [Stock.get_product]
  simp only [hsplit]

theorem enterDispatching_unfold (m m' : Machine)
    (h : dispatchProduct { m with state := .DISPATCHING_PRODUCT } = (m', none)) :
    enterDispatchingProduct m = enterReturningChange m' := by
  rw [enterDispatchingProduct, h]

theorem enterReturning_unfold (m m' : Machine)
    (h : returnChange { m with state := .RETURNING_CHANGE } = (m', none)) :
    enterReturningChange m = ({ m' with state := .IDLE }, none) := by
  rw [enterReturningChange, h]

theorem returnChange_zero (m : Machine) (h : m.customer_balance = 0) :
    returnChange m = (m, none) := by
  rw [returnChange, if_pos h]

theorem returnChange_removes (m : Machine) (cfg : ChangeConfiguration) (inv' : Dict)
    (hne : m.customer_balance ≠ 0)
    (hcfg : find_optimal_change m.customer_balance m.monetary_inventory = some cfg)
    (hcne : cfg.configuration.isEmpty = false)
    (hrm : removeChangeLoop m.monetary_inventory.inventory cfg.configuration =
      (inv', none)) :
    returnChange m =
      ({ m with
          monetary_inventory := ⟨inv', m.monetary_inventory.supported⟩,
          cash_sent := m.cash_sent ++ [cfg] }, none) := by
  rw [returnChange, if_neg hne]
  simp only [hcfg]
  rw [if_neg (by simp [hcne])]
  have hrc : m.monetary_inventory.remove_change cfg.configuration =
      ({ m.monetary_inventory with inventory := inv' }, none) := by
    rw [MonetaryInventory.remove_change, hrm]
  rw [hrc]

/-- C3: for a completed checkout over the exact-change path — `start`,
`select`, a list of valid supported inserts, then `checkout` with sufficient
balance and an exact change configuration available — the run reaches IDLE
with no error; the customer balance held after the product was dispatched
equals the total value of the change configuration subsequently removed from
the inventory; and for every denomination, the inventory count before the
transaction equals the count after the transaction plus the dispensed change
minus the inserted cash. -/
theorem exact_change_roundtrip (m₀ : Machine) (pid price : Int) (ds : List Int)
    (hst : m₀.state = .IDLE)
    (hpr : m₀.stock.get_price_of pid = some price)
    (hstock : m₀.stock.products pid ≠ [])
    (hds : ∀ d ∈ ds, denomValid d = true ∧ d ∈ m₀.monetary_inventory.supported ∧ 0 < d)
    (hnd : (keysOf m₀.monetary_inventory.inventory).Nodup)
    (hpos : ∀ k ∈ keysOf m₀.monetary_inventory.inventory, 0 < k)
    (hbal : price ≤ m₀.customer_balance + ds.sum)
    (hmax : m₀.customer_balance + ds.sum - price < sysMaxsize)
    (hexact : ∀ cfg,
      find_optimal_change (m₀.customer_balance + ds.sum - price)
        (runSeq (.start :: .select pid :: ds.map .insert) m₀).1.monetary_inventory =
        some cfg → cfg.owed = 0) :
    (runSeq (.start :: .select pid :: (ds.map .insert ++ [.checkout])) m₀).2 = none ∧
    (runSeq (.start :: .select pid :: (ds.map .insert ++ [.checkout])) m₀).1.state =
      .IDLE ∧
    (runSeq (.start :: .select pid :: (ds.map .insert ++ [.checkout]))
        m₀).1.customer_balance = m₀.customer_balance + ds.sum - price ∧
    ∃ cfg,
      find_optimal_change (m₀.customer_balance + ds.sum - price)
        (runSeq (.start :: .select pid :: ds.map .insert) m₀).1.monetary_inventory =
        some cfg ∧
      dictVal cfg.configuration =
        (runSeq (.start :: .select pid :: (ds.map .insert ++ [.checkout]))
          m₀).1.customer_balance ∧
      (∀ k, lookupD m₀.monetary_inventory.inventory k =
        lookupD (runSeq (.start :: .select pid :: (ds.map .insert ++ [.checkout]))
            m₀).1.monetary_inventory.inventory k
          + lookupD cfg.configuration k - countIn ds k) := by
  set m₂ : Machine :=
    { m₀ with state := .COLLECTING_PAYMENT, selected_product := some pid } with hm₂v
  have hconsAB : ∀ rest : List Trigger,
      runSeq (.start :: .select pid :: rest) m₀ = runSeq rest m₂ := by
    intro rest
    rw [runSeq_cons_ok _ _ _ _ (fire_start_eq m₀ hst)]
    exact runSeq_cons_ok _ _ _ _
      ((fire_select_eq { m₀ with state := .PRODUCT_SELECTION } pid rfl).trans (by rfl))
  have hds₂ : ∀ d ∈ ds, denomValid d = true ∧ d ∈ m₂.monetary_inventory.supported :=
    fun d hd => ⟨(hds d hd).1, (hds d hd).2.1⟩
  obtain ⟨i1, i2, i3, i4, i5, i6, i7, i8, i9⟩ := runSeq_inserts ds m₂ rfl hds₂
  set M3 : Machine := (runSeq (ds.map Trigger.insert) m₂).1 with hM3v
  have hM3sel : M3.selected_product = some pid := i6.trans (by rfl)
  have hM3stock : M3.stock = m₀.stock := i5.trans (by rfl)
  have hM3pr : M3.stock.get_price_of pid = some price := by rw [hM3stock]; exact hpr
  have hM3bal : M3.customer_balance = m₀.customer_balance + ds.sum := i3.trans (by rfl)
  have hM3nd : (keysOf M3.monetary_inventory.inventory).Nodup := i8 (by exact hnd)
  have hM3lookup : ∀ k, lookupD M3.monetary_inventory.inventory k =
      lookupD m₀.monetary_inventory.inventory k + countIn ds k :=
    fun k => (i7 k).trans (by rfl)
  have hM3pos : ∀ k ∈ keysOf M3.monetary_inventory.inventory, 0 < k := by
    intro k hk
    rcases i9 k hk with h | h
    · exact hpos k (by exact h)
    · exact (hds k h).2.2
  obtain ⟨cfg, hcfg, hc0, hcle, hval, hT, _⟩ :=
    find_optimal_change_spec (m₀.customer_balance + ds.sum - price) M3.monetary_inventory
      (by omega) hmax hM3nd hM3pos
  have hrunC : (runSeq (.start :: .select pid :: ds.map .insert) m₀).1 = M3 := by
    rw [hconsAB]
  have hex : cfg.owed = 0 := by
    apply hexact cfg
    rw [hrunC]
    exact hcfg
  have hcfg' : find_optimal_change (M3.customer_balance - price) M3.monetary_inventory =
      some cfg := by
    rw [hM3bal]
    have : m₀.customer_balance + ds.sum - price =
        m₀.customer_balance + List.sum ds - price := rfl
    rw [this] at hcfg
    exact hcfg
  have hver := fire_checkout_exact M3 pid price cfg i2 hM3sel hM3pr
    (by rw [hM3bal]; omega) hcfg' hex
  set M4 : Machine := { M3 with customer_balance := M3.customer_balance - price }
    with hM4v
  obtain ⟨p, rest, hsplit⟩ :
      ∃ p rest, m₀.stock.products pid = p :: rest := by
    cases hc : m₀.stock.products pid with
    | nil => exact absurd hc hstock
    | cons p rest => exact ⟨p, rest, rfl⟩
  have hdisp := dispatchProduct_eq { M4 with state := .DISPATCHING_PRODUCT } pid p rest
    (by exact hM3sel) (by rw [show ({ M4 with state := .DISPATCHING_PRODUCT } :
        Machine).stock = m₀.stock from hM3stock]; exact hsplit)
  have henter1 := enterDispatching_unfold M4 _ hdisp
  set M5 : Machine :=
    { M4 with
        state := .DISPATCHING_PRODUCT,
        stock := ⟨({ M4 with state := .DISPATCHING_PRODUCT } : Machine).stock.catalogue,
          fun i => if i = pid then rest
            else ({ M4 with state := .DISPATCHING_PRODUCT } : Machine).stock.products i⟩,
        selected_product := none,
        dispatched := ({ M4 with state := .DISPATCHING_PRODUCT } :
          Machine).dispatched ++ [p] } with hM5v
  set M6 : Machine := { M5 with state := .RETURNING_CHANGE } with hM6v
  have hM6bal : M6.customer_balance = m₀.customer_balance + ds.sum - price := by
    show M3.customer_balance - price = _
    rw [hM3bal]
  have hdict : dictVal cfg.configuration = m₀.customer_balance + ds.sum - price := by
    rw [hval, hex]
    ring
  by_cases hz : m₀.customer_balance + ds.sum - price = 0
  · have hret : returnChange M6 = (M6, none) :=
      returnChange_zero M6 (by rw [hM6bal, hz])
    have henter2 : enterReturningChange M5 = ({ M6 with state := .IDLE }, none) :=
      enterReturning_unfold M5 M6 hret
    have hfull : runSeq (.start :: .select pid :: (ds.map .insert ++ [.checkout])) m₀ =
        ({ M6 with state := .IDLE }, none) := by
      rw [hconsAB, runSeq_append_ok _ _ m₂ i1, runSeq_singleton, ← hM3v, hver, henter1,
        henter2]
    have hcfgnil : cfg.configuration = [] := by
      have := dictVal_nonneg_of_TailOK M3.monetary_inventory.inventory cfg.configuration
        hM3pos hT
      exact this.2 (by rw [hdict, hz])
    refine ⟨by rw [hfull], by rw [hfull], ?_, ?_⟩
    · rw [hfull]
      show M3.customer_balance - price = _
      rw [hM3bal]
    · refine ⟨cfg, by rw [hrunC]; exact hcfg, ?_, ?_⟩
      · rw [hfull, hdict]
        show _ = M3.customer_balance - price
        rw [hM3bal]
      · intro k
        rw [hfull, hcfgnil]
        have h1 := hM3lookup k
        have h2 : lookupD ({ M6 with state := States.IDLE } :
            Machine).monetary_inventory.inventory k =
            lookupD M3.monetary_inventory.inventory k := rfl
        rw [h2]
        rw [lookupD_nil]
        omega
  · have hne6 : M6.customer_balance ≠ 0 := by rw [hM6bal]; exact hz
    have hcne : cfg.configuration.isEmpty = false := by
      cases hc : cfg.configuration with
      | nil =>
        exfalso
        apply hz
        rw [← hdict, hc, dictVal_nil]
      | cons a b => rfl
    obtain ⟨rm1, rm2⟩ := removeChangeLoop_ok cfg.configuration
      M3.monetary_inventory.inventory hT.1
      (fun q hq => ⟨(hT.2 q hq).1, (hT.2 q hq).2.2⟩)
    rcases hr : removeChangeLoop M3.monetary_inventory.inventory cfg.configuration
      with ⟨inv', e⟩
    rw [hr] at rm1 rm2
    simp only at rm1 rm2
    subst rm1
    have hret := returnChange_removes M6 cfg inv' hne6
      (by exact hcfg') (by exact hcne) (by exact hr)
    have henter2 := enterReturning_unfold M5 _ hret
    have hfull : runSeq (.start :: .select pid :: (ds.map .insert ++ [.checkout])) m₀ =
        ({ { M6 with
              monetary_inventory := ⟨inv', M6.monetary_inventory.supported⟩,
              cash_sent := M6.cash_sent ++ [cfg] } with state := .IDLE }, none) := by
      rw [hconsAB, runSeq_append_ok _ _ m₂ i1, runSeq_singleton, ← hM3v, hver, henter1,
        henter2]
    refine ⟨by rw [hfull], by rw [hfull], ?_, ?_⟩
    · rw [hfull]
      show M3.customer_balance - price = _
      rw [hM3bal]
    · refine ⟨cfg, by rw [hrunC]; exact hcfg, ?_, ?_⟩
      · rw [hfull, hdict]
        show _ = M3.customer_balance - price
        rw [hM3bal]
      · intro k
        rw [hfull]
        have h1 := hM3lookup k
        have h2 := rm2 k
        have h3 : lookupD ({ { M6 with
              monetary_inventory := ⟨inv', M6.monetary_inventory.supported⟩,
              cash_sent := M6.cash_sent ++ [cfg] } with state := States.IDLE } :
            Machine).monetary_inventory.inventory k = lookupD inv' k := rfl
        rw [h3]
        omega

/-- Witness for C3 on the test fixture: select Water (price 100), insert one
200 note, checkout; the exact change of 100 is removed and the inventory
balances per denomination. -/
theorem exact_change_roundtrip_witness :
    (runSeq [.start, .select 2, .insert 200, .checkout] sampleMachine).2 = none ∧
    (runSeq [.start, .select 2, .insert 200, .checkout] sampleMachine).1.state = .IDLE ∧
    (runSeq [.start, .select 2, .insert 200, .checkout]
        sampleMachine).1.customer_balance = 100 ∧
    ∃ cfg,
      find_optimal_change 100
        (runSeq [.start, .select 2, .insert 200] sampleMachine).1.monetary_inventory =
        some cfg ∧
      dictVal cfg.configuration =
        (runSeq [.start, .select 2, .insert 200, .checkout]
          sampleMachine).1.customer_balance ∧
      (∀ k, lookupD sampleMachine.monetary_inventory.inventory k =
        lookupD (runSeq [.start, .select 2, .insert 200, .checkout]
            sampleMachine).1.monetary_inventory.inventory k
          + lookupD cfg.configuration k - countIn [200] k) :=
  exact_change_roundtrip sampleMachine 2 100 [200] rfl rfl (by decide) (by decide)
    (by decide) (by decide) (by decide) (by decide)
    (by
      intro cfg h
      have he : find_optimal_change
          (sampleMachine.customer_balance + List.sum [(200 : Int)] - 100)
          (runSeq (.start :: .select 2 :: List.map Trigger.insert [(200 : Int)])
            sampleMachine).1.monetary_inventory = some ⟨0, [(100, 1)]⟩ := rfl
      rw [he] at h
      cases Option.some_inj.mp h
      rfl)

end VM
